import Mathlib

/-
Verification development for the BlockCache repository (Go).
The definitions below are a shallow embedding of the source files:
  - store/lru.go   (lock-guarded, TTL-aware LRU variant, lines 1-260)
  - singleflight   (Group.Do coordinator)
  - peers          (ClientPicker.PickPeer and membership maintenance)
  - group.go       (Group: Get/Set/Delete/Clear/Close, syncToPeers)
  - server.go      (Server.Set context stamping)
  - client.go      (Client.GetFromPeer)
Locks are elided: every Go method runs its critical sections under the
store or picker lock, so a single method call is modelled as one atomic
state transformation.  Time is an explicit Nat parameter (absolute
nanoseconds); time.Now().After(t) is modelled as t < now.
-/

namespace BlockCache

/-! ### Generic association-list helpers
Go maps used by the source (items, expiredTime, clients, groups) are
modelled as association lists with these map operations. -/

def lookupA {α : Type} (l : List (String × α)) (k : String) : Option α :=
  (l.find? (fun e => e.1 == k)).map (fun e => e.2)

def setA {α : Type} (l : List (String × α)) (k : String) (a : α) : List (String × α) :=
  if l.any (fun e => e.1 == k) then
    l.map (fun e => if e.1 == k then (k, a) else e)
  else
    l ++ [(k, a)]

def eraseA {α : Type} (l : List (String × α)) (k : String) : List (String × α) :=
  l.eraseP (fun e => e.1 == k)

def keysA {α : Type} (l : List (String × α)) : List String :=
  l.map Prod.fst

/-! ### Values and the LRU store (src/store/lru.go, lock-guarded variant)

A cached value is modelled as a String (the Go Value interface only
exposes a byte length; ByteView wraps a byte slice).  The doubly linked
list is a List with the front (least recently used) first and the back
(most recently used) last, exactly as the source comments describe.
The items map is derivable (key membership in the list), so the model
keeps the list, the expiry map, the byte counter and the capacity.
The eviction callback is not modelled (no claim concerns it). -/

def entrySize (k v : String) : Int :=
  (k.length : Int) + (v.length : Int)

def sumSizes : List (String × String) → Int
  | [] => 0
  | e :: t => entrySize e.1 e.2 + sumSizes t

structure LruCache where
  maxBytes : Int
  usedBytes : Int
  ll : List (String × String)
  expiredTime : List (String × Nat)
deriving DecidableEq, Repr

/-- Well-formed store states: the byte counter matches the list contents,
and each map has at most one binding per key (Go map semantics). -/
def wfLru (c : LruCache) : Prop :=
  c.usedBytes = sumSizes c.ll ∧ (keysA c.ll).Nodup ∧ (keysA c.expiredTime).Nodup

instance (c : LruCache) : Decidable (wfLru c) := by
  unfold wfLru
  infer_instance

/-- lruCache.removeElement applied to the front node of the list
(the eviction step of removeOldest). -/
def evictFront (c : LruCache) (k v : String) (rest : List (String × String)) : LruCache :=
  { c with ll := rest
         , expiredTime := eraseA c.expiredTime k
         , usedBytes := c.usedBytes - entrySize k v }

/-- The loop of lruCache.removeOldest, with an explicit iteration bound:
each pass removes the front element, so the list length bounds the number
of iterations exactly.  Structural recursion on the bound keeps the
definition computable by the kernel. -/
def removeOldestFuel : Nat → LruCache → LruCache
  | 0, c => c
  | n + 1, c =>
    if 0 < c.maxBytes ∧ c.maxBytes < c.usedBytes then
      match c.ll with
      | [] => c
      | (k, v) :: rest => removeOldestFuel n (evictFront c k v rest)
    else c

/-- lruCache.removeOldest: while maxBytes > 0 and usedBytes > maxBytes and
the list is non-empty, remove the front (LRU) element. -/
def removeOldest (c : LruCache) : LruCache :=
  removeOldestFuel c.ll.length c

/-- The expiry-map update at the top of lruCache.SetWithExpiration:
a positive duration records expiry = now + duration, otherwise any
pre-existing expiry for the key is deleted. -/
def touchExpiry (c : LruCache) (k : String) (duration : Int) (now : Nat) : LruCache :=
  if 0 < duration then
    { c with expiredTime := setA c.expiredTime k (now + duration.toNat) }
  else
    { c with expiredTime := eraseA c.expiredTime k }

/-- The insert-or-update step of lruCache.SetWithExpiration: update the
existing entry in place and move it to the back, or push a new entry at
the back, adjusting usedBytes either way. -/
def upsertEntry (c : LruCache) (k v : String) : LruCache :=
  match lookupA c.ll k with
  | some oldv =>
    { c with usedBytes := c.usedBytes + ((v.length : Int) - (oldv.length : Int))
           , ll := eraseA c.ll k ++ [(k, v)] }
  | none =>
    { c with ll := c.ll ++ [(k, v)]
           , usedBytes := c.usedBytes + entrySize k v }

/-- The body of lruCache.SetWithExpiration before the final removeOldest. -/
def upsertTouched (c : LruCache) (k v : String) (duration : Int) (now : Nat) : LruCache :=
  upsertEntry (touchExpiry c k duration now) k v

/-- lruCache.SetWithExpiration (src/store/lru.go lines 136-167). -/
def setWithExpiration (c : LruCache) (k v : String) (duration : Int) (now : Nat) : LruCache :=
  removeOldest (upsertTouched c k v duration now)

/-- lruCache.Set delegates to SetWithExpiration with duration 0. -/
def lruSet (c : LruCache) (k v : String) (now : Nat) : LruCache :=
  setWithExpiration c k v 0 now

/-- Result of lruCache.Get: the value (a copy of the handle), the found
flag, the key handed to the asynchronous `go c.Delete(key)` launch (if
any), and the store state as left by the synchronous part of Get. -/
structure GetResult where
  value : Option String
  ok : Bool
  asyncDel : Option String
  state : LruCache
deriving DecidableEq, Repr

/-- lruCache.Get (src/store/lru.go lines 66-100): a stale entry is
reported as a miss and deleted asynchronously (the shared lock is
released first, leaving the store unchanged); otherwise the node moves
to the MRU end (the back of the list). -/
def lruGet (c : LruCache) (k : String) (now : Nat) : GetResult :=
  match lookupA c.ll k with
  | none => ⟨none, false, none, c⟩
  | some v =>
    let hit : GetResult :=
      ⟨some v, true, none, { c with ll := eraseA c.ll k ++ [(k, v)] }⟩
    match lookupA c.expiredTime k with
    | some expTime => if expTime < now then ⟨none, false, some k, c⟩ else hit
    | none => hit

/-- lruCache.Delete: remove the key from the list, the items map and the
expiry map, decrementing usedBytes (removeElement). -/
def lruDelete (c : LruCache) (k : String) : LruCache :=
  match lookupA c.ll k with
  | none => c
  | some v =>
    { c with ll := eraseA c.ll k
           , expiredTime := eraseA c.expiredTime k
           , usedBytes := c.usedBytes - entrySize k v }

/-- States in which the eviction loop of Set is a no-op: either the store
is unbounded or the entries already fit the budget. -/
def noEvict (c : LruCache) : Prop :=
  c.maxBytes ≤ 0 ∨ c.usedBytes ≤ c.maxBytes

instance (c : LruCache) : Decidable (noEvict c) := by
  unfold noEvict
  infer_instance

/-! ### Consistent hash and the peer picker
Embedding of the ClientPicker (PeerPicker implementation) and, modelled
from the spec, the consistent-hash ring whose package source is not
among the provided files. -/

def strHash (s : String) : Nat :=
  s.data.foldl (fun a c => a * 131 + c.toNat) 7

/-- Modelled from the spec: the consistenthash package source is absent.
Per section 4.5, Get(key) hashes the key, binary-searches the ring of
virtual-node positions and maps the hit back to its node id, returning
the empty string on an empty ring.  The model keeps the multiset of real
nodes on the ring and picks one deterministically from the key hash. -/
def consGet (nodes : List String) (key : String) : String :=
  nodes.getD (strHash key % nodes.length) ""

structure Client where
  addr : String
deriving DecidableEq, Repr

structure ClientPicker where
  selfAddr : String
  ringNodes : List String
  clients : List (String × Client)
deriving DecidableEq, Repr

/-- ClientPicker.PickPeer (peers source, lines 235-246): consult the
ring under the shared lock; a non-empty owner address is looked up in
the client map and returned with ok=true and self = (address == own);
otherwise (nil, false, false). -/
def pickPeer (p : ClientPicker) (key : String) : Option Client × Bool × Bool :=
  if consGet p.ringNodes key ≠ "" then
    match lookupA p.clients (consGet p.ringNodes key) with
    | some c => (some c, true, consGet p.ringNodes key == p.selfAddr)
    | none => (none, false, false)
  else (none, false, false)

/-- ClientPicker.set: create a client for the address, record it in the
client map and add the address to the hash ring (the NewClient success
path; on a dial error the source changes nothing). -/
def pickerSet (p : ClientPicker) (addr : String) : ClientPicker :=
  { p with clients := setA p.clients addr ⟨addr⟩
         , ringNodes := p.ringNodes ++ [addr] }

/-- ClientPicker.remove: drop all ring positions of the address and its
client-map entry. -/
def pickerRemove (p : ClientPicker) (addr : String) : ClientPicker :=
  { p with ringNodes := p.ringNodes.filter (fun a => a ≠ addr)
         , clients := eraseA p.clients addr }

/-- ClientPicker.fetchAllServices (peers source, lines 119-144): one
range read; every returned address that is neither empty nor self is
set. -/
def fetchAllServices (p : ClientPicker) (addrs : List String) : ClientPicker :=
  addrs.foldl
    (fun q addr => if addr ≠ "" ∧ addr ≠ q.selfAddr then pickerSet q addr else q) p

/-- ClientPicker.handleWatchEvents: an event is (isPut, address); events
for self are skipped, put adds unknown addresses, delete removes known
ones (closing the client first, not modelled). -/
def handleWatchEvents (p : ClientPicker) (events : List (Bool × String)) : ClientPicker :=
  events.foldl
    (fun q ev =>
      if ev.2 = q.selfAddr then q
      else if ev.1 then
        if (lookupA q.clients ev.2).isSome then q else pickerSet q ev.2
      else
        if (lookupA q.clients ev.2).isSome then pickerRemove q ev.2 else q)
    p

/-- Picker states reachable through the discovery code: the own address
is a real address and never enters the ring or the client map, the ring
and the map track each other, and every stored client dials exactly the
address it is filed under. -/
def wfPicker (p : ClientPicker) : Prop :=
  p.selfAddr ≠ "" ∧
  "" ∉ p.ringNodes ∧
  p.selfAddr ∉ p.ringNodes ∧
  (keysA p.clients).Nodup ∧
  (∀ a ∈ p.ringNodes, a ∈ keysA p.clients) ∧
  (∀ a ∈ keysA p.clients, a ∈ p.ringNodes) ∧
  (∀ e ∈ p.clients, (e : String × Client).2.addr = e.1)

instance (p : ClientPicker) : Decidable (wfPicker p) := by
  unfold wfPicker
  infer_instance

/-! ### Errors, the cache wrapper and the Group layer
Embedding of group.go (Group operations, syncToPeers, the process-wide
group registry), server.go (Server.Set context stamping) and client.go
(Client.GetFromPeer). -/

/-- Go error values: errors.New gives a base error; fmt.Errorf with the
wrapping verb gives a wrapped error whose Unwrap chain continues into
the cause. -/
inductive GoErr where
  | base (msg : String)
  | wrap (msg : String) (cause : GoErr)
deriving DecidableEq, Repr

def GoErr.message : GoErr → String
  | .base m => m
  | .wrap m _ => m

/-- The Unwrap chain of an error, the error itself first (what
errors.Is traverses). -/
def errChain : GoErr → List GoErr
  | .base m => [.base m]
  | .wrap m c => .wrap m c :: errChain c

/-- fmt.Errorf with the non-wrapping verb, as used by Group.loadData
("failed to get from getter: " with the percent-v verb): the cause text
is interpolated into the message but the result has no Unwrap chain. -/
def errorfNoWrap (pre : String) (e : GoErr) : GoErr :=
  .base (pre ++ e.message)

/-- Outcome of running Go code that may panic. -/
inductive Outcome (α : Type) where
  | ok (a : α)
  | panicked (msg : String)
deriving DecidableEq, Repr

/-- Modelled from the spec: the Cache wrapper (cache.go) is not among
the provided sources.  Per section 4.3 it exposes Get/Add/
AddWithExpiration/Delete/Clear/Close over the underlying store: Get
reports presence of an unexpired entry, Add records a value without
expiry, AddWithExpiration records an absolute expiry time. -/
structure CacheM where
  entries : List (String × String × Option Nat)
  closedC : Bool
deriving DecidableEq, Repr

def cacheGet (c : CacheM) (key : String) (now : Nat) : Option String :=
  match lookupA c.entries key with
  | none => none
  | some (v, none) => some v
  | some (v, some exp) => if exp < now then none else some v

def cacheAdd (c : CacheM) (key v : String) : CacheM :=
  { c with entries := setA c.entries key (v, none) }

def cacheAddWithExpiration (c : CacheM) (key v : String) (exp : Nat) : CacheM :=
  { c with entries := setA c.entries key (v, some exp) }

def cacheDelete (c : CacheM) (key : String) : CacheM :=
  { c with entries := eraseA c.entries key }

def cacheClear (c : CacheM) : CacheM :=
  { c with entries := [] }

def cacheClose (c : CacheM) : CacheM :=
  { c with closedC := true }

/-- A request context; fromPeer records whether the reserved
"from_peer" value is present (Group code only tests presence). -/
structure Ctx where
  fromPeer : Bool
deriving DecidableEq, Repr

/-- Observable calls made by a Group operation. -/
inductive GEvent where
  | loaderCall (key : String)
  | peerCall (key : String)
deriving DecidableEq, Repr

structure GroupStats where
  loads : Nat
  localHits : Nat
  peerHits : Nat
  peerMisses : Nat
  loaderHits : Nat
  loaderErrors : Nat
deriving DecidableEq, Repr

structure GroupM where
  name : String
  closed : Bool
  expiration : Int
  cache : CacheM
  peers : Option ClientPicker
  stats : GroupStats
deriving DecidableEq, Repr

def bumpLoads (g : GroupM) : GroupM :=
  { g with stats := { g.stats with loads := g.stats.loads + 1 } }

def bumpLocalHits (g : GroupM) : GroupM :=
  { g with stats := { g.stats with localHits := g.stats.localHits + 1 } }

def bumpPeerHits (g : GroupM) : GroupM :=
  { g with stats := { g.stats with peerHits := g.stats.peerHits + 1 } }

def bumpPeerMisses (g : GroupM) : GroupM :=
  { g with stats := { g.stats with peerMisses := g.stats.peerMisses + 1 } }

def bumpLoaderHits (g : GroupM) : GroupM :=
  { g with stats := { g.stats with loaderHits := g.stats.loaderHits + 1 } }

def bumpLoaderErrors (g : GroupM) : GroupM :=
  { g with stats := { g.stats with loaderErrors := g.stats.loaderErrors + 1 } }

/-- A remote call issued by syncToPeers: Set carries the fresh sync
context (its from-peer marker recorded here); Delete is issued without a
context. -/
inductive RemoteCall where
  | setCall (target key value : String) (ctxFromPeer : Bool)
  | delCall (target key : String)
deriving DecidableEq, Repr

def RemoteCall.target : RemoteCall → String
  | .setCall t _ _ _ => t
  | .delCall t _ => t

/-- Group.syncToPeers (group source lines 269-300): pick the ring owner
of the key; return without any call when there is no picker, the pick
fails, or the owner is self; otherwise issue exactly one remote Set
(under a fresh context carrying from-peer) or one remote Delete.
The (nil, true, false) pick never occurs (pickPeer only pairs ok=true
with a client); that arm is mapped to no call. -/
def syncToPeers (g : GroupM) (op key value : String) : List RemoteCall :=
  match g.peers with
  | none => []
  | some p =>
    match pickPeer p key with
    | (some c, true, false) =>
      if op = "set" then [.setCall c.addr key value true]
      else if op = "delete" then [.delCall c.addr key]
      else []
    | _ => []

/-- The local-cache population step shared by Group.Set and Group.load:
apply the default TTL when configured. -/
def groupPopulate (g : GroupM) (key v : String) (now : Nat) : GroupM :=
  if 0 < g.expiration then
    { g with cache := cacheAddWithExpiration g.cache key v (now + g.expiration.toNat) }
  else
    { g with cache := cacheAdd g.cache key v }

/-- Group.Set (group source lines 238-268).  Result: the returned error,
the new group state, whether the asynchronous syncToPeers goroutine was
launched, and the remote calls that goroutine performs. -/
def groupSet (g : GroupM) (ctx : Ctx) (key value : String) (now : Nat) :
    Option GoErr × GroupM × Bool × List RemoteCall :=
  if g.closed then (some (.base "cache group is closed"), g, false, [])
  else if key = "" ∨ value = "" then
    (some (.base "key is empty or value is empty"), g, false, [])
  else
    let g1 := groupPopulate g key value now
    if ¬ctx.fromPeer ∧ g.peers.isSome then
      (none, g1, true, syncToPeers g1 "set" key value)
    else (none, g1, false, [])

/-- Group.Delete (group source lines 301-322). -/
def groupDelete (g : GroupM) (ctx : Ctx) (key : String) :
    Option GoErr × GroupM × Bool × List RemoteCall :=
  if g.closed then (some (.base "cache group is closed"), g, false, [])
  else if key = "" then (some (.base "key is empty"), g, false, [])
  else
    let g1 := { g with cache := cacheDelete g.cache key }
    if ¬ctx.fromPeer ∧ g.peers.isSome then
      (none, g1, true, syncToPeers g1 "delete" key "")
    else (none, g1, false, [])

/-- Group.Clear (group source lines 325-333).  The Go method returns
nothing; the Option GoErr slot records explicitly that no error is ever
produced, so statements about a failing Clear can be expressed. -/
def groupClearR (g : GroupM) : Option GoErr × GroupM :=
  if g.closed then (none, g)
  else (none, { g with cache := cacheClear g.cache })

def getGroupR (reg : List (String × GroupM)) (name : String) : Option GroupM :=
  lookupA reg name

/-- The registration step of NewGroup: insert into the process-wide
name-to-group map, overwriting an existing entry of the same name. -/
def registerGroup (reg : List (String × GroupM)) (name : String) (g : GroupM) :
    List (String × GroupM) :=
  setA reg name g

/-- Group.Close (group source lines 336-355): the compare-and-swap on
the closed flag makes the second call a no-op returning nil; a
successful first call closes the cache and deletes the group name from
the process-wide map unconditionally. -/
def groupClose (g : GroupM) (reg : List (String × GroupM)) :
    Option GoErr × GroupM × List (String × GroupM) :=
  if g.closed then (none, g, reg)
  else (none, { g with closed := true, cache := cacheClose g.cache }, eraseA reg g.name)

/-- The getter fallback inside Group.loadData: a getter error is
reformatted with the non-wrapping verb; a hit bumps loaderHits and the
bytes are cloned into a fresh view. -/
def loadFromGetter (getter : String → Except GoErr String) (g : GroupM) (key : String)
    (evs : List GEvent) : Except GoErr String × GroupM × List GEvent :=
  match getter key with
  | .error e =>
    (.error (errorfNoWrap "failed to get from getter: " e), g, evs ++ [.loaderCall key])
  | .ok bs => (.ok bs, bumpLoaderHits g, evs ++ [.loaderCall key])

/-- Group.loadData (group source lines 200-226): try the remote owner
when a picker is registered, the pick succeeds and the owner is not
self; on peer success bump peerHits, on peer error bump peerMisses and
fall through to the getter; otherwise go straight to the getter. -/
def loadData (getter : String → Except GoErr String)
    (peerFetch : Ctx → String → Outcome (Except GoErr String))
    (g : GroupM) (ctx : Ctx) (key : String) :
    Outcome (Except GoErr String × GroupM × List GEvent) :=
  match g.peers with
  | some p =>
    match pickPeer p key with
    | (_, true, false) =>
      match peerFetch ctx key with
      | .panicked m => .panicked m
      | .ok (.ok v) => .ok (.ok v, bumpPeerHits g, [.peerCall key])
      | .ok (.error _) => .ok (loadFromGetter getter (bumpPeerMisses g) key [.peerCall key])
    | _ => .ok (loadFromGetter getter g key [])
  | none => .ok (loadFromGetter getter g key [])

/-- Group.load (group source lines 164-197) for a single caller: the
single-flight Do invokes loadData directly; loads is bumped, an error
bumps loaderErrors and is returned as is, a success is written to the
local cache (with the default TTL when configured). -/
def groupLoad (getter : String → Except GoErr String)
    (peerFetch : Ctx → String → Outcome (Except GoErr String))
    (g : GroupM) (ctx : Ctx) (key : String) (now : Nat) :
    Outcome (Except GoErr String × GroupM × List GEvent) :=
  match loadData getter peerFetch g ctx key with
  | .panicked m => .panicked m
  | .ok (res, g1, evs) =>
    match res with
    | .error e => .ok (.error e, bumpLoaderErrors (bumpLoads g1), evs)
    | .ok v => .ok (.ok v, groupPopulate (bumpLoads g1) key v now, evs)

/-- Group.Get (group source lines 143-161). -/
def groupGet (getter : String → Except GoErr String)
    (peerFetch : Ctx → String → Outcome (Except GoErr String))
    (g : GroupM) (ctx : Ctx) (key : String) (now : Nat) :
    Outcome (Except GoErr String × GroupM × List GEvent) :=
  if g.closed then .ok (.error (.base "group is closed"), g, [])
  else if key = "" then .ok (.error (.base "key is empty"), g, [])
  else
    match cacheGet g.cache key now with
    | some v => .ok (.ok v, bumpLocalHits g, [])
    | none => groupLoad getter peerFetch g ctx key now

/-- Server.Set context handling (server.go lines 188-192): inject the
from-peer marker into the inbound context when it is absent. -/
def serverStampCtx (ctx : Ctx) : Ctx :=
  if ctx.fromPeer then ctx else { fromPeer := true }

/-- Server.Set (server.go lines 182-199): dispatch by group name, stamp
the context, delegate to Group.Set. -/
def serverSet (reg : List (String × GroupM)) (name : String) (ctx : Ctx)
    (key value : String) (now : Nat) :
    Option GoErr × Option (GroupM × Bool × List RemoteCall) :=
  match getGroupR reg name with
  | none => (some (.base ("group " ++ name ++ " not found")), none)
  | some g =>
    let r := groupSet g (serverStampCtx ctx) key value now
    (r.1, some r.2)

/-- Client.GetFromPeer (client.go lines 33-35): unimplemented, panics
for every input. -/
def clientGetFromPeer (_ : Ctx) (_ : String) : Outcome (Except GoErr String) :=
  .panicked "unimplemented"

/-- No remote route is taken for this key: either no picker is
registered, or the pick fails, or the owner is self. -/
def noRemoteRoute (g : GroupM) (key : String) : Prop :=
  ∀ p : ClientPicker, g.peers = some p →
    ((pickPeer p key).2.1 = false ∨ (pickPeer p key).2.2 = true)

/-! ### The single-flight coordinator (singleflight source, Group.Do)

An interleaving model of Do for one fixed key.  Each caller thread runs
the statements of Do as atomic steps, split at the points where the map
lock is released or a wait happens:
  start      - about to take the lock and check the map;
  waiting    - found a call record, waiting on its latch;
  running    - installed a fresh record, about to invoke fn
               (fn runs without the lock; invoking it, storing val/err
               and wg.Done() form the next step);
  deleting   - about to re-take the lock and delete the map entry;
  returning  - about to return;
  finished   - returned with its result.
A schedule is the list of thread ids picked to take successive steps; a
thread whose step is not enabled (a waiter whose latch is still armed,
or a finished thread) leaves the state unchanged.  The i-th invocation
of fn returns fnRes i, so distinct invocations may return distinct
results. -/

inductive SfPc where
  | start
  | waiting (rid : Nat)
  | running (rid : Nat)
  | deleting (rid : Nat) (r : Nat)
  | returning (rid : Nat) (r : Nat)
  | finished (rid : Nat) (r : Nat)
deriving DecidableEq, Repr

/-- Global state: per-thread program counters, the g.m entry for the key
(a call-record id or absent), the store of call records ever created
(their result slot, none until fn stores it), and the number of fn
invocations so far. -/
structure SfConfig where
  threads : List SfPc
  slot : Option Nat
  results : List (Option Nat)
  fnCount : Nat
deriving DecidableEq, Repr

def resAt (c : SfConfig) (rid : Nat) : Option Nat :=
  c.results.getD rid none

def sfStepStart (c : SfConfig) (t : Nat) : SfConfig :=
  match c.slot with
  | some rid => { c with threads := c.threads.set t (.waiting rid) }
  | none =>
    { c with threads := c.threads.set t (.running c.results.length)
           , slot := some c.results.length
           , results := c.results ++ [none] }

def sfStepWaiting (c : SfConfig) (t rid : Nat) : SfConfig :=
  match c.results.getD rid none with
  | some r => { c with threads := c.threads.set t (.returning rid r) }
  | none => c

def sfStep (fnRes : Nat → Nat) (c : SfConfig) (t : Nat) : SfConfig :=
  match c.threads[t]? with
  | none => c
  | some pc =>
    match pc with
    | .start => sfStepStart c t
    | .running rid =>
      { c with threads := c.threads.set t (.deleting rid (fnRes c.fnCount))
             , results := c.results.set rid (some (fnRes c.fnCount))
             , fnCount := c.fnCount + 1 }
    | .deleting rid r =>
      { c with threads := c.threads.set t (.returning rid r), slot := none }
    | .waiting rid => sfStepWaiting c t rid
    | .returning rid r => { c with threads := c.threads.set t (.finished rid r) }
    | .finished _ _ => c

def sfInit (n : Nat) : SfConfig :=
  ⟨List.replicate n .start, none, [], 0⟩

def sfRun (fnRes : Nat → Nat) (n : Nat) (sched : List Nat) : SfConfig :=
  sched.foldl (sfStep fnRes) (sfInit n)

/-- Thread t has returned in the configuration reached after the first
i+1 steps of the schedule. -/
def sfFinishedAt (fnRes : Nat → Nat) (n : Nat) (sched : List Nat) (i t : Nat) : Bool :=
  match (sfRun fnRes n (sched.take (i + 1))).threads[t]? with
  | some (.finished _ _) => true
  | _ => false

def retIndex (fnRes : Nat → Nat) (n : Nat) (sched : List Nat) (t : Nat) : Option Nat :=
  (List.range sched.length).find? (fun i => sfFinishedAt fnRes n sched i t)

def startIndex (sched : List Nat) (t : Nat) : Option Nat :=
  sched.findIdx? (fun x => x == t)

/-- The Do executions of t1 and t2 overlap in time: each one takes its
first step no later than the step at which the other returns. -/
def overlapB (fnRes : Nat → Nat) (n : Nat) (sched : List Nat) (t1 t2 : Nat) : Bool :=
  match startIndex sched t1, retIndex fnRes n sched t1,
        startIndex sched t2, retIndex fnRes n sched t2 with
  | some s1, some r1, some s2, some r2 => decide (s2 ≤ r1) && decide (s1 ≤ r2)
  | _, _, _, _ => false

def sfResult (c : SfConfig) (t : Nat) : Option (Nat × Nat) :=
  match c.threads[t]? with
  | some (.finished rid r) => some (rid, r)
  | _ => none

/-- The single-flight contract exactly as the spec states it: for any
set of concurrent callers of Do with the same key whose executions
overlap in time, fn is invoked at most once and all of them observe the
same result. -/
def sfOriginalContract : Prop :=
  ∀ (fnRes : Nat → Nat) (n : Nat) (sched : List Nat) (t1 t2 : Nat),
    t1 ≠ t2 → overlapB fnRes n sched t1 t2 = true →
    (sfRun fnRes n sched).fnCount ≤ 1 ∧
    (∀ p1 p2 : Nat × Nat, sfResult (sfRun fnRes n sched) t1 = some p1 →
      sfResult (sfRun fnRes n sched) t2 = some p2 → p1.2 = p2.2)

def countSome : List (Option Nat) → Nat
  | [] => 0
  | some _ :: t => countSome t + 1
  | none :: t => countSome t

def pcRid : SfPc → Option Nat
  | .start => none
  | .waiting rid => some rid
  | .running rid => some rid
  | .deleting rid _ => some rid
  | .returning rid _ => some rid
  | .finished rid _ => some rid

/-- The inductive invariant of the coordinator: every referenced record
exists; a leader about to store has an empty slot, and no two leaders
share a record; every result a thread carries equals the stored result
of its record (results are write-once); fn has been invoked exactly once
per filled record; the installed map entry refers to a real record. -/
structure SfInv (c : SfConfig) : Prop where
  ridBound : ∀ (t : Nat) (pc : SfPc) (rid : Nat),
    c.threads[t]? = some pc → pcRid pc = some rid → rid < c.results.length
  runningFresh : ∀ (t rid : Nat),
    c.threads[t]? = some (.running rid) → resAt c rid = none
  runningDistinct : ∀ (t1 t2 rid1 rid2 : Nat), t1 ≠ t2 →
    c.threads[t1]? = some (.running rid1) → c.threads[t2]? = some (.running rid2) →
    rid1 ≠ rid2
  stored : ∀ (t rid r : Nat),
    (c.threads[t]? = some (.deleting rid r) ∨ c.threads[t]? = some (.returning rid r) ∨
      c.threads[t]? = some (.finished rid r)) →
    resAt c rid = some r
  countEq : c.fnCount = countSome c.results
  slotBound : ∀ rid : Nat, c.slot = some rid → rid < c.results.length

/-! ### Theorems -/

theorem lookupA_cons {α : Type} (e : String × α) (t : List (String × α)) (k : String) :
    lookupA (e :: t) k = if e.1 = k then some e.2 else lookupA t k := by
  by_cases h : e.1 = k
  · simp [lookupA, List.find?, h]
  · have hb : (e.1 == k) = false := by simp [h]
    simp [lookupA, List.find?, hb, h]

theorem lookupA_eq_none {α : Type} (l : List (String × α)) (k : String)
    (h : ∀ e ∈ l, e.1 ≠ k) : lookupA l k = none := by
  induction l with
  | nil => rfl
  | cons e t ih =>
    rw [lookupA_cons]
    have he : e.1 ≠ k := h e (List.mem_cons_self e t)
    rw [if_neg he]
    exact ih (fun x hx => h x (List.mem_cons_of_mem e hx))

theorem lookupA_none_forall {α : Type} (l : List (String × α)) (k : String)
    (h : lookupA l k = none) : ∀ e ∈ l, e.1 ≠ k := by
  induction l with
  | nil => intro e he; simp at he
  | cons e t ih =>
    rw [lookupA_cons] at h
    by_cases hek : e.1 = k
    · simp [hek] at h
    · rw [if_neg hek] at h
      intro x hx
      rcases List.mem_cons.mp hx with h2 | h2
      · rw [h2]; exact hek
      · exact ih h x h2

theorem lookupA_append {α : Type} (l1 l2 : List (String × α)) (k : String) :
    lookupA (l1 ++ l2) k =
      match lookupA l1 k with
      | some a => some a
      | none => lookupA l2 k := by
  induction l1 with
  | nil => simp [lookupA]
  | cons e t ih =>
    by_cases h : e.1 = k
    · simp [lookupA_cons, h]
    · rw [List.cons_append, lookupA_cons, lookupA_cons, if_neg h, if_neg h]
      exact ih

theorem setA_of_not_mem {α : Type} (l : List (String × α)) (k : String) (a : α)
    (h : lookupA l k = none) : setA l k a = l ++ [(k, a)] := by
  have hany : (l.any fun e => e.1 == k) = false := by
    rw [List.any_eq_false]
    intro e he hbe
    exact lookupA_none_forall l k h e he (eq_of_beq hbe)
  unfold setA
  rw [hany]
  exact if_neg (by simp)

theorem lookupA_setA_aux {α : Type} (k : String) (a : α) :
    ∀ l : List (String × α), (l.any fun e => e.1 == k) = true →
      lookupA (l.map (fun e => if e.1 == k then (k, a) else e)) k = some a := by
  intro l
  induction l with
  | nil => intro h; simp at h
  | cons e t ih =>
    intro hany
    by_cases hek : e.1 = k
    · have hb : (e.1 == k) = true := by simp [hek]
      simp only [List.map_cons, hb, if_true]
      rw [lookupA_cons]
      simp
    · have hb : (e.1 == k) = false := by simp [hek]
      simp only [List.any_cons, hb, Bool.false_or] at hany
      rw [List.map_cons]
      have hfe : (if (e.1 == k) = true then (k, a) else e) = e := by
        rw [hb]
        simp
      rw [hfe, lookupA_cons, if_neg hek]
      exact ih hany

theorem lookupA_setA_self {α : Type} (l : List (String × α)) (k : String) (a : α) :
    lookupA (setA l k a) k = some a := by
  by_cases hany : (l.any fun e => e.1 == k) = true
  · unfold setA
    rw [if_pos hany]
    exact lookupA_setA_aux k a l hany
  · have hnone : lookupA l k = none := by
      apply lookupA_eq_none
      intro e he hek
      apply hany
      rw [List.any_eq_true]
      exact ⟨e, he, by simp [hek]⟩
    rw [setA_of_not_mem l k a hnone, lookupA_append, hnone]
    rw [lookupA_cons]
    simp

theorem keysA_append {α : Type} (l1 l2 : List (String × α)) :
    keysA (l1 ++ l2) = keysA l1 ++ keysA l2 := by
  simp [keysA]

theorem keysA_setA_of_any {α : Type} (l : List (String × α)) (k : String) (a : α)
    (hany : (l.any fun e => e.1 == k) = true) : keysA (setA l k a) = keysA l := by
  unfold setA
  rw [if_pos hany]
  unfold keysA
  rw [List.map_map]
  apply List.map_congr_left
  intro e _
  by_cases hek : e.1 = k
  · have hb : (e.1 == k) = true := by simp [hek]
    simp [Function.comp, hb, hek]
  · have hb : (e.1 == k) = false := by simp [hek]
    simp [Function.comp, hb]

theorem nodup_keysA_setA {α : Type} (l : List (String × α)) (k : String) (a : α)
    (h : (keysA l).Nodup) : (keysA (setA l k a)).Nodup := by
  by_cases hany : (l.any fun e => e.1 == k) = true
  · rw [keysA_setA_of_any l k a hany]
    exact h
  · have hnone : lookupA l k = none := by
      apply lookupA_eq_none
      intro e he hek
      apply hany
      rw [List.any_eq_true]
      exact ⟨e, he, by simp [hek]⟩
    rw [setA_of_not_mem l k a hnone, keysA_append]
    rw [List.nodup_append]
    refine ⟨h, by simp [keysA], ?_⟩
    intro x hx
    simp only [keysA, List.map_cons, List.map_nil, List.mem_singleton]
    intro hxk
    rw [hxk] at hx
    simp only [keysA, List.mem_map] at hx
    obtain ⟨e, he, hek⟩ := hx
    exact lookupA_none_forall l k hnone e he hek

theorem keysA_eraseA_sublist {α : Type} (l : List (String × α)) (k : String) :
    (keysA (eraseA l k)).Sublist (keysA l) := by
  induction l with
  | nil => simp [eraseA, keysA]
  | cons e t ih =>
    by_cases hek : e.1 = k
    · have hb : (e.1 == k) = true := by simp [hek]
      simp only [eraseA, List.eraseP_cons, hb, cond_true]
      simp only [keysA, List.map_cons]
      exact List.sublist_cons_self e.1 (List.map Prod.fst t)
    · have hb : (e.1 == k) = false := by simp [hek]
      simp only [eraseA, List.eraseP_cons, hb, cond_false]
      simp only [keysA, List.map_cons]
      exact List.Sublist.cons₂ e.1 ih

theorem nodup_keysA_eraseA {α : Type} (l : List (String × α)) (k : String)
    (h : (keysA l).Nodup) : (keysA (eraseA l k)).Nodup :=
  (keysA_eraseA_sublist l k).nodup h

theorem not_mem_keysA_eraseA {α : Type} (l : List (String × α)) (k : String)
    (h : (keysA l).Nodup) : k ∉ keysA (eraseA l k) := by
  intro hmem
  induction l with
  | nil => simp [eraseA, keysA] at hmem
  | cons e t ih =>
    simp only [keysA, List.map_cons, List.nodup_cons] at h
    by_cases hek : e.1 = k
    · have hb : (e.1 == k) = true := by simp [hek]
      simp only [eraseA, List.eraseP_cons, hb, cond_true] at hmem
      exact h.1 (hek ▸ hmem)
    · have hb : (e.1 == k) = false := by simp [hek]
      simp only [eraseA, List.eraseP_cons, hb, cond_false] at hmem
      simp only [keysA, List.map_cons, List.mem_cons] at hmem
      rcases hmem with h2 | h2
      · exact hek h2.symm
      · exact ih h.2 h2

theorem lookupA_eraseA_self {α : Type} (l : List (String × α)) (k : String)
    (h : (keysA l).Nodup) : lookupA (eraseA l k) k = none := by
  apply lookupA_eq_none
  intro e he hek
  have : k ∈ keysA (eraseA l k) := by
    simp only [keysA, List.mem_map]
    exact ⟨e, he, hek⟩
  exact not_mem_keysA_eraseA l k h this

theorem lookupA_none_not_mem {α : Type} (l : List (String × α)) (k : String)
    (h : lookupA l k = none) : k ∉ keysA l := by
  intro hmem
  simp only [keysA, List.mem_map] at hmem
  obtain ⟨e, he, hek⟩ := hmem
  exact lookupA_none_forall l k h e he hek

theorem sumSizes_append (l1 l2 : List (String × String)) :
    sumSizes (l1 ++ l2) = sumSizes l1 + sumSizes l2 := by
  induction l1 with
  | nil => simp [sumSizes]
  | cons e t ih => simp [sumSizes, ih]; ring

theorem sumSizes_eraseA (l : List (String × String)) (k oldv : String)
    (h : lookupA l k = some oldv) :
    sumSizes (eraseA l k) = sumSizes l - entrySize k oldv := by
  induction l with
  | nil => simp [lookupA] at h
  | cons e t ih =>
    by_cases hek : e.1 = k
    · rw [lookupA_cons] at h
      simp only [hek, if_true] at h
      have hv : e.2 = oldv := Option.some.inj h
      have hb : (e.1 == k) = true := by simp [hek]
      simp only [eraseA, List.eraseP_cons, hb, cond_true]
      simp only [sumSizes]
      have : entrySize e.1 e.2 = entrySize k oldv := by rw [hek, hv]
      omega
    · rw [lookupA_cons] at h
      simp only [hek, if_false] at h
      have hb : (e.1 == k) = false := by simp [hek]
      simp only [eraseA, List.eraseP_cons, hb, cond_false]
      simp only [sumSizes]
      have := ih h
      simp only [eraseA] at this
      omega

theorem touchExpiry_ll (c : LruCache) (k : String) (duration : Int) (now : Nat) :
    (touchExpiry c k duration now).ll = c.ll := by
  unfold touchExpiry
  by_cases hd : 0 < duration <;> simp [hd]

theorem touchExpiry_usedBytes (c : LruCache) (k : String) (duration : Int) (now : Nat) :
    (touchExpiry c k duration now).usedBytes = c.usedBytes := by
  unfold touchExpiry
  by_cases hd : 0 < duration <;> simp [hd]

theorem touchExpiry_maxBytes (c : LruCache) (k : String) (duration : Int) (now : Nat) :
    (touchExpiry c k duration now).maxBytes = c.maxBytes := by
  unfold touchExpiry
  by_cases hd : 0 < duration <;> simp [hd]

theorem wfLru_touchExpiry (c : LruCache) (k : String) (duration : Int) (now : Nat)
    (h : wfLru c) : wfLru (touchExpiry c k duration now) := by
  obtain ⟨hsum, hnodupL, hnodupE⟩ := h
  unfold touchExpiry
  by_cases hd : 0 < duration
  · rw [if_pos hd]
    exact ⟨hsum, hnodupL, nodup_keysA_setA _ _ _ hnodupE⟩
  · rw [if_neg hd]
    exact ⟨hsum, hnodupL, nodup_keysA_eraseA _ _ hnodupE⟩

theorem wfLru_upsertEntry (c : LruCache) (k v : String)
    (h : wfLru c) : wfLru (upsertEntry c k v) := by
  obtain ⟨hsum, hnodupL, hnodupE⟩ := h
  unfold upsertEntry
  match hl : lookupA c.ll k with
  | some oldv =>
    refine ⟨?_, ?_, hnodupE⟩
    · simp only
      rw [sumSizes_append]
      have herase := sumSizes_eraseA c.ll k oldv hl
      simp only [sumSizes, entrySize] at *
      omega
    · simp only
      rw [keysA_append, List.nodup_append]
      refine ⟨nodup_keysA_eraseA _ _ hnodupL, by simp [keysA], ?_⟩
      intro a ha
      simp only [keysA, List.map_cons, List.map_nil, List.mem_singleton]
      intro hb
      rw [hb] at ha
      exact not_mem_keysA_eraseA _ _ hnodupL ha
  | none =>
    refine ⟨?_, ?_, hnodupE⟩
    · simp only
      rw [sumSizes_append]
      simp [sumSizes, hsum]
    · simp only
      rw [keysA_append, List.nodup_append]
      refine ⟨hnodupL, by simp [keysA], ?_⟩
      intro a ha
      simp only [keysA, List.map_cons, List.map_nil, List.mem_singleton]
      intro hb
      rw [hb] at ha
      exact lookupA_none_not_mem _ _ hl ha

theorem wfLru_upsertTouched (c : LruCache) (k v : String) (duration : Int) (now : Nat)
    (h : wfLru c) : wfLru (upsertTouched c k v duration now) :=
  wfLru_upsertEntry _ k v (wfLru_touchExpiry c k duration now h)

theorem wfLru_evictFront (c : LruCache) (k v : String) (rest : List (String × String))
    (hll : c.ll = (k, v) :: rest) (h : wfLru c) : wfLru (evictFront c k v rest) := by
  obtain ⟨hsum, hnodupL, hnodupE⟩ := h
  rw [hll] at hsum hnodupL
  simp only [sumSizes] at hsum
  simp only [keysA, List.map_cons, List.nodup_cons] at hnodupL
  refine ⟨?_, hnodupL.2, nodup_keysA_eraseA _ _ hnodupE⟩
  simp only [evictFront]
  omega

theorem removeOldestFuel_le (n : Nat) : ∀ c : LruCache, c.ll.length ≤ n →
    c.usedBytes = sumSizes c.ll → 0 < c.maxBytes →
    (removeOldestFuel n c).usedBytes ≤ c.maxBytes := by
  induction n with
  | zero =>
    intro c hlen hsum hmax
    have hnil : c.ll = [] := by
      cases h : c.ll with
      | nil => rfl
      | cons e t => rw [h] at hlen; simp at hlen
    rw [hnil] at hsum
    simp [sumSizes] at hsum
    simp only [removeOldestFuel]
    omega
  | succ m ih =>
    intro c hlen hsum hmax
    rw [removeOldestFuel]
    by_cases hcond : 0 < c.maxBytes ∧ c.maxBytes < c.usedBytes
    · rw [if_pos hcond]
      cases hll : c.ll with
      | nil =>
        exfalso
        rw [hll] at hsum
        simp [sumSizes] at hsum
        omega
      | cons e rest =>
        obtain ⟨k, v⟩ := e
        have h1 : (evictFront c k v rest).ll.length ≤ m := by
          simp only [evictFront]
          rw [hll] at hlen
          simp at hlen
          omega
        have h2 : (evictFront c k v rest).usedBytes = sumSizes (evictFront c k v rest).ll := by
          simp only [evictFront]
          rw [hll] at hsum
          simp only [sumSizes] at hsum
          omega
        have h3 : 0 < (evictFront c k v rest).maxBytes := hmax
        exact ih (evictFront c k v rest) h1 h2 h3
    · rw [if_neg hcond]
      push_neg at hcond
      exact hcond hmax

theorem removeOldest_le (c : LruCache)
    (hsum : c.usedBytes = sumSizes c.ll) (hmax : 0 < c.maxBytes) :
    (removeOldest c).usedBytes ≤ c.maxBytes :=
  removeOldestFuel_le c.ll.length c (le_refl _) hsum hmax

theorem removeOldestFuel_wf (n : Nat) : ∀ c : LruCache, wfLru c →
    wfLru (removeOldestFuel n c) := by
  induction n with
  | zero =>
    intro c hwf
    exact hwf
  | succ m ih =>
    intro c hwf
    rw [removeOldestFuel]
    by_cases hcond : 0 < c.maxBytes ∧ c.maxBytes < c.usedBytes
    · rw [if_pos hcond]
      cases hll : c.ll with
      | nil => exact hwf
      | cons e rest =>
        obtain ⟨k, v⟩ := e
        exact ih (evictFront c k v rest) (wfLru_evictFront c k v rest hll hwf)
    · rw [if_neg hcond]
      exact hwf

theorem removeOldest_wf (c : LruCache) (h : wfLru c) : wfLru (removeOldest c) :=
  removeOldestFuel_wf c.ll.length c h

theorem removeOldestFuel_eq_self (n : Nat) (c : LruCache)
    (h : ¬(0 < c.maxBytes ∧ c.maxBytes < c.usedBytes)) :
    removeOldestFuel n c = c := by
  cases n with
  | zero => rfl
  | succ m =>
    rw [removeOldestFuel]
    rw [if_neg h]

theorem removeOldest_eq_self (c : LruCache)
    (h : c.maxBytes ≤ 0 ∨ c.usedBytes ≤ c.maxBytes) : removeOldest c = c := by
  apply removeOldestFuel_eq_self
  rcases h with h | h <;> omega

theorem removeOldestFuel_succ_cons (n : Nat) (c : LruCache) (k v : String)
    (rest : List (String × String)) (hll : c.ll = (k, v) :: rest)
    (hcond : 0 < c.maxBytes ∧ c.maxBytes < c.usedBytes) :
    removeOldestFuel (n + 1) c = removeOldestFuel n (evictFront c k v rest) := by
  rw [removeOldestFuel, if_pos hcond, hll]

theorem upsertTouched_maxBytes (c : LruCache) (k v : String) (duration : Int) (now : Nat) :
    (upsertTouched c k v duration now).maxBytes = c.maxBytes := by
  unfold upsertTouched upsertEntry
  cases lookupA (touchExpiry c k duration now).ll k <;>
    simp [touchExpiry_maxBytes]

/-- C3: for the lock-guarded LRU store with max-bytes > 0, every Set and
SetWithExpiration leaves used-bytes at or below max-bytes, and does so by
evicting from the list front (the LRU end) while max-bytes > 0 and
used-bytes > max-bytes and the list is non-empty. -/
theorem claim3 (c : LruCache) (k v : String) (duration : Int) (now : Nat)
    (hwf : wfLru c) (hmax : 0 < c.maxBytes) :
    (setWithExpiration c k v duration now).usedBytes ≤ c.maxBytes ∧
    lruSet c k v now = setWithExpiration c k v 0 now ∧
    setWithExpiration c k v duration now = removeOldest (upsertTouched c k v duration now) ∧
    (∀ c' : LruCache, ¬(0 < c'.maxBytes ∧ c'.maxBytes < c'.usedBytes) →
      removeOldest c' = c') ∧
    (∀ (c' : LruCache) (k' v' : String) (rest : List (String × String)),
      c'.ll = (k', v') :: rest → 0 < c'.maxBytes → c'.maxBytes < c'.usedBytes →
      removeOldest c' = removeOldest (evictFront c' k' v' rest)) := by
  refine ⟨?_, rfl, rfl, ?_, ?_⟩
  · have hwf2 := wfLru_upsertTouched c k v duration now hwf
    have hmax2 : 0 < (upsertTouched c k v duration now).maxBytes := by
      rw [upsertTouched_maxBytes]; exact hmax
    have hle := removeOldest_le (upsertTouched c k v duration now) hwf2.1 hmax2
    unfold setWithExpiration
    rw [upsertTouched_maxBytes] at hle
    exact hle
  · intro c' hcond
    exact removeOldestFuel_eq_self c'.ll.length c' hcond
  · intro c' k' v' rest hll hm hu
    have hcond : 0 < c'.maxBytes ∧ c'.maxBytes < c'.usedBytes := ⟨hm, hu⟩
    have hstep := removeOldestFuel_succ_cons rest.length c' k' v' rest hll hcond
    unfold removeOldest
    conv_lhs => rw [hll]
    simp only [List.length_cons]
    rw [hstep]
    rfl

/-- Concrete instance discharging the hypotheses of claim3: a store at
4/6 bytes receives a 3-byte entry and evicts the front entry. -/
theorem claim3_witness :
    wfLru ⟨6, 4, [("a", "aaa")], []⟩ ∧
    (0 : Int) < (6 : Int) ∧
    (setWithExpiration ⟨6, 4, [("a", "aaa")], []⟩ "b" "bb" 0 0).usedBytes ≤ 6 := by
  refine ⟨by decide, by norm_num, ?_⟩
  exact (claim3 ⟨6, 4, [("a", "aaa")], []⟩ "b" "bb" 0 0 (by decide) (by norm_num)).1

theorem upsertEntry_expiredTime (c : LruCache) (k v : String) :
    (upsertEntry c k v).expiredTime = c.expiredTime := by
  unfold upsertEntry
  split <;> rfl

theorem lookupA_upsertEntry_self (c : LruCache) (k v : String)
    (hnd : (keysA c.ll).Nodup) : lookupA (upsertEntry c k v).ll k = some v := by
  unfold upsertEntry
  split
  · rename_i oldv hl
    simp only
    rw [lookupA_append, lookupA_eraseA_self _ _ hnd]
    rw [lookupA_cons]
    simp
  · rename_i hl
    simp only
    rw [lookupA_append, hl, lookupA_cons]
    simp

theorem touchExpiry_expiredTime_pos (c : LruCache) (k : String) (duration : Int) (now : Nat)
    (h : 0 < duration) :
    (touchExpiry c k duration now).expiredTime = setA c.expiredTime k (now + duration.toNat) := by
  unfold touchExpiry
  rw [if_pos h]

theorem touchExpiry_expiredTime_nonpos (c : LruCache) (k : String) (duration : Int) (now : Nat)
    (h : ¬0 < duration) :
    (touchExpiry c k duration now).expiredTime = eraseA c.expiredTime k := by
  unfold touchExpiry
  rw [if_neg h]

theorem getLast?_append_singleton {α : Type} (l : List α) (x : α) :
    (l ++ [x]).getLast? = some x := by
  induction l with
  | nil => rfl
  | cons a t ih =>
    cases t with
    | nil => rfl
    | cons b t2 =>
      rw [show (a :: b :: t2) ++ [x] = a :: b :: (t2 ++ [x]) from rfl]
      rw [List.getLast?_cons_cons]
      rw [show b :: (t2 ++ [x]) = (b :: t2) ++ [x] from rfl]
      exact ih

/-- C7: updating a key through plain Set (SetWithExpiration with
duration 0) deletes any pre-existing expiry, so after
SetWithExpiration(k,v,d) followed by Set(k,v2), a Get at any later time
still returns (copy-of-v2, true) with no asynchronous delete.  The
hypotheses say that neither insertion overflows the byte budget (the
scenario of the spec: a 100-byte store holding tiny entries). -/
theorem claim7 (c : LruCache) (k v v2 : String) (dur : Int) (t0 t1 t2 : Nat)
    (hwf : wfLru c)
    (h1 : noEvict (upsertTouched c k v dur t0))
    (h2 : noEvict (upsertTouched (setWithExpiration c k v dur t0) k v2 0 t1)) :
    lookupA (lruSet (setWithExpiration c k v dur t0) k v2 t1).expiredTime k = none ∧
    (lruGet (lruSet (setWithExpiration c k v dur t0) k v2 t1) k t2).value = some v2 ∧
    (lruGet (lruSet (setWithExpiration c k v dur t0) k v2 t1) k t2).ok = true ∧
    (lruGet (lruSet (setWithExpiration c k v dur t0) k v2 t1) k t2).asyncDel = none := by
  have hs1eq : setWithExpiration c k v dur t0 = upsertTouched c k v dur t0 :=
    removeOldest_eq_self _ h1
  have hwf1 : wfLru (setWithExpiration c k v dur t0) := by
    rw [hs1eq]
    exact wfLru_upsertTouched c k v dur t0 hwf
  have hs2eq : lruSet (setWithExpiration c k v dur t0) k v2 t1 =
      upsertTouched (setWithExpiration c k v dur t0) k v2 0 t1 := by
    unfold lruSet setWithExpiration
    exact removeOldest_eq_self _ h2
  have hexp : lookupA (lruSet (setWithExpiration c k v dur t0) k v2 t1).expiredTime k = none := by
    rw [hs2eq]
    unfold upsertTouched
    rw [upsertEntry_expiredTime]
    rw [touchExpiry_expiredTime_nonpos _ _ _ _ (by norm_num)]
    exact lookupA_eraseA_self _ _ hwf1.2.2
  have hll : lookupA (lruSet (setWithExpiration c k v dur t0) k v2 t1).ll k = some v2 := by
    rw [hs2eq]
    unfold upsertTouched
    apply lookupA_upsertEntry_self
    rw [touchExpiry_ll]
    exact hwf1.2.1
  refine ⟨hexp, ?_, ?_, ?_⟩ <;> simp [lruGet, hll, hexp]

/-- Concrete instance discharging the hypotheses of claim7, mirroring the
spec scenario: SetWithExpiration(k1,v1,100) then Set(k1,v2); a Get long
after the original expiry still returns v2. -/
theorem claim7_witness :
    (lruGet (lruSet (setWithExpiration ⟨100, 0, [], []⟩ "k1" "v1" 100 0) "k1" "v2" 50)
        "k1" 1000).value = some "v2" ∧
    (lruGet (lruSet (setWithExpiration ⟨100, 0, [], []⟩ "k1" "v1" 100 0) "k1" "v2" 50)
        "k1" 1000).ok = true := by
  have h := claim7 ⟨100, 0, [], []⟩ "k1" "v1" "v2" 100 0 50 1000
    (by decide) (by decide) (by decide)
  exact ⟨h.2.1, h.2.2.1⟩

/-- C8: after SetWithExpiration(k,v,d) with d > 0 and no eviction, a Get
performed after the expiry time has passed reports a miss and launches an
asynchronous Delete, leaving the store untouched under the read path;
the Delete then removes the entry from both the primary map and the
expiry map; a Get before expiry returns the value, launches nothing, and
moves the node to the MRU end (the back of the list). -/
theorem claim8 (c : LruCache) (k v : String) (dur : Int) (t0 : Nat)
    (hwf : wfLru c) (hdur : 0 < dur)
    (hne : noEvict (upsertTouched c k v dur t0)) :
    (∀ t : Nat, t0 + dur.toNat < t →
      lruGet (setWithExpiration c k v dur t0) k t =
        ⟨none, false, some k, setWithExpiration c k v dur t0⟩) ∧
    (lookupA (lruDelete (setWithExpiration c k v dur t0) k).ll k = none ∧
     lookupA (lruDelete (setWithExpiration c k v dur t0) k).expiredTime k = none) ∧
    (∀ t : Nat, t ≤ t0 + dur.toNat →
      (lruGet (setWithExpiration c k v dur t0) k t).value = some v ∧
      (lruGet (setWithExpiration c k v dur t0) k t).ok = true ∧
      (lruGet (setWithExpiration c k v dur t0) k t).asyncDel = none ∧
      ((lruGet (setWithExpiration c k v dur t0) k t).state.ll).getLast? = some (k, v)) := by
  have hseq : setWithExpiration c k v dur t0 = upsertTouched c k v dur t0 :=
    removeOldest_eq_self _ hne
  have hwfs : wfLru (setWithExpiration c k v dur t0) := by
    rw [hseq]
    exact wfLru_upsertTouched c k v dur t0 hwf
  have hexp : lookupA (setWithExpiration c k v dur t0).expiredTime k =
      some (t0 + dur.toNat) := by
    rw [hseq]
    unfold upsertTouched
    rw [upsertEntry_expiredTime]
    rw [touchExpiry_expiredTime_pos _ _ _ _ hdur]
    exact lookupA_setA_self _ _ _
  have hll : lookupA (setWithExpiration c k v dur t0).ll k = some v := by
    rw [hseq]
    unfold upsertTouched
    apply lookupA_upsertEntry_self
    rw [touchExpiry_ll]
    exact hwf.2.1
  refine ⟨?_, ?_, ?_⟩
  · intro t ht
    simp [lruGet, hll, hexp, ht]
  · constructor
    · unfold lruDelete
      rw [hll]
      simp only
      exact lookupA_eraseA_self _ _ hwfs.2.1
    · unfold lruDelete
      rw [hll]
      simp only
      exact lookupA_eraseA_self _ _ hwfs.2.2
  · intro t ht
    have hnot : ¬(t0 + dur.toNat < t) := by omega
    refine ⟨?_, ?_, ?_, ?_⟩ <;>
      simp [lruGet, hll, hexp, hnot, getLast?_append_singleton]

/-- Concrete instance discharging the hypotheses of claim8: after
SetWithExpiration(k,v,10) at time 0, a Get at time 11 misses and launches
an asynchronous delete with the store unchanged. -/
theorem claim8_witness :
    lruGet (setWithExpiration ⟨100, 0, [], []⟩ "k" "v" 10 0) "k" 11 =
      ⟨none, false, some "k", setWithExpiration ⟨100, 0, [], []⟩ "k" "v" 10 0⟩ :=
  (claim8 ⟨100, 0, [], []⟩ "k" "v" 10 0 (by decide) (by norm_num) (by decide)).1
    11 (by norm_num)

theorem lookupA_mem {α : Type} (l : List (String × α)) (k : String) (a : α)
    (h : lookupA l k = some a) : ∃ e ∈ l, e.1 = k ∧ e.2 = a := by
  induction l with
  | nil => simp [lookupA] at h
  | cons e t ih =>
    rw [lookupA_cons] at h
    by_cases hek : e.1 = k
    · rw [if_pos hek] at h
      exact ⟨e, List.mem_cons_self e t, hek, Option.some.inj h⟩
    · rw [if_neg hek] at h
      obtain ⟨x, hx, hxk, hxa⟩ := ih h
      exact ⟨x, List.mem_cons_of_mem e hx, hxk, hxa⟩

theorem lookupA_some_mem_keys {α : Type} (l : List (String × α)) (k : String) (a : α)
    (h : lookupA l k = some a) : k ∈ keysA l := by
  obtain ⟨e, he, hek, _⟩ := lookupA_mem l k a h
  simp only [keysA, List.mem_map]
  exact ⟨e, he, hek⟩

theorem mem_keys_lookupA {α : Type} (l : List (String × α)) (k : String)
    (h : k ∈ keysA l) : ∃ a, lookupA l k = some a := by
  induction l with
  | nil => simp [keysA] at h
  | cons e t ih =>
    rw [lookupA_cons]
    by_cases hek : e.1 = k
    · rw [if_pos hek]
      exact ⟨e.2, rfl⟩
    · rw [if_neg hek]
      apply ih
      simp only [keysA, List.map_cons, List.mem_cons] at h
      rcases h with h | h
      · exact absurd h.symm hek
      · exact h

theorem consGet_mem_or_empty (nodes : List String) (key : String) :
    consGet nodes key = "" ∨ consGet nodes key ∈ nodes := by
  cases hn : nodes with
  | nil => left; rfl
  | cons a t =>
    right
    unfold consGet
    have hlt : strHash key % (a :: t).length < (a :: t).length :=
      Nat.mod_lt _ (by simp)
    rw [List.getD_eq_getElem (a :: t) "" hlt]
    exact List.getElem_mem hlt

/-- C5: for every key, under the picker invariant, PickPeer reports
(nil, ok=true, self=true) exactly when the ring maps the key to the own
address (both sides are unrealizable, since discovery never admits self
into the ring), returns (clients-entry, true, false) whenever the ring
owner is a known remote address, returns (nil, false, false) when the
address lookup fails, and never hands out self as a remote peer. -/
theorem claim5 (p : ClientPicker) (key : String) (hwf : wfPicker p) :
    ((pickPeer p key = (none, true, true)) ↔ consGet p.ringNodes key = p.selfAddr) ∧
    (∀ c : Client, lookupA p.clients (consGet p.ringNodes key) = some c →
      pickPeer p key = (some c, true, false)) ∧
    (lookupA p.clients (consGet p.ringNodes key) = none →
      pickPeer p key = (none, false, false)) ∧
    (∀ (c : Client) (ok isSelf : Bool), pickPeer p key = (some c, ok, isSelf) →
      c.addr ≠ p.selfAddr ∧ isSelf = false) := by
  obtain ⟨hselfne, hempring, hselfring, hnd, hr2k, hk2r, hcaddr⟩ := hwf
  rcases consGet_mem_or_empty p.ringNodes key with hempty | hmem
  · have hpp : pickPeer p key = (none, false, false) := by
      unfold pickPeer
      rw [if_neg (by simp [hempty])]
    refine ⟨?_, ?_, ?_, ?_⟩
    · constructor
      · intro h
        rw [hpp] at h
        exact absurd h (by simp)
      · intro h
        rw [hempty] at h
        exact absurd h.symm hselfne
    · intro c hc
      exfalso
      have := lookupA_some_mem_keys _ _ _ hc
      rw [hempty] at this
      exact hempring (hk2r _ this)
    · intro _
      exact hpp
    · intro c ok isSelf h
      rw [hpp] at h
      exact absurd h (by simp)
  · have haddrne : consGet p.ringNodes key ≠ "" := by
      intro h
      rw [h] at hmem
      exact hempring hmem
    have hselfaddr : consGet p.ringNodes key ≠ p.selfAddr := by
      intro h
      rw [h] at hmem
      exact hselfring hmem
    obtain ⟨c0, hc0⟩ := mem_keys_lookupA _ _ (hr2k _ hmem)
    have hbeq : (consGet p.ringNodes key == p.selfAddr) = false := by
      simp [hselfaddr]
    have hpp : pickPeer p key = (some c0, true, false) := by
      unfold pickPeer
      rw [if_pos haddrne, hc0, hbeq]
    have hc0addr : c0.addr = consGet p.ringNodes key := by
      obtain ⟨e, he, hek, hea⟩ := lookupA_mem _ _ _ hc0
      rw [← hea, hcaddr e he, hek]
    refine ⟨?_, ?_, ?_, ?_⟩
    · constructor
      · intro h
        rw [hpp] at h
        exact absurd h (by simp)
      · intro h
        exact absurd h hselfaddr
    · intro c hc
      rw [hc0] at hc
      rw [hpp, Option.some.inj hc]
    · intro hc
      rw [hc0] at hc
      exact absurd hc (by simp)
    · intro c ok isSelf h
      rw [hpp] at h
      have hc : some c0 = some c := congrArg Prod.fst h
      have hrest := congrArg Prod.snd h
      have hok : isSelf = false := (Prod.mk.injEq _ _ _ _).mp hrest |>.2.symm
      refine ⟨?_, hok⟩
      rw [← Option.some.inj hc, hc0addr]
      exact hselfaddr

/-- Concrete instance discharging the hypothesis of claim5: a two-node
view where the ring owner of the key is the remote peer b. -/
theorem claim5_witness :
    wfPicker ⟨"a", ["b"], [("b", ⟨"b"⟩)]⟩ ∧
    pickPeer ⟨"a", ["b"], [("b", ⟨"b"⟩)]⟩ "k" = (some ⟨"b"⟩, true, false) := by
  refine ⟨by decide, ?_⟩
  exact (claim5 ⟨"a", ["b"], [("b", ⟨"b"⟩)]⟩ "k" (by decide)).2.1 ⟨"b"⟩ (by decide)

theorem pickPeer_cases (p : ClientPicker) (key : String) (hwf : wfPicker p) :
    (pickPeer p key = (none, false, false) ∧
     lookupA p.clients (consGet p.ringNodes key) = none) ∨
    (∃ c : Client, pickPeer p key = (some c, true, false) ∧
     lookupA p.clients (consGet p.ringNodes key) = some c ∧
     c.addr = consGet p.ringNodes key ∧
     consGet p.ringNodes key ≠ "" ∧
     consGet p.ringNodes key ≠ p.selfAddr) := by
  obtain ⟨hselfne, hempring, hselfring, hnd, hr2k, hk2r, hcaddr⟩ := hwf
  rcases consGet_mem_or_empty p.ringNodes key with hempty | hmem
  · left
    have hlk : lookupA p.clients (consGet p.ringNodes key) = none := by
      cases hl : lookupA p.clients (consGet p.ringNodes key) with
      | none => rfl
      | some c =>
        exfalso
        have hin := lookupA_some_mem_keys _ _ _ hl
        rw [hempty] at hin
        exact hempring (hk2r _ hin)
    refine ⟨?_, hlk⟩
    unfold pickPeer
    rw [if_neg (by simp [hempty])]
  · right
    have haddrne : consGet p.ringNodes key ≠ "" := fun h => hempring (h ▸ hmem)
    have hselfaddr : consGet p.ringNodes key ≠ p.selfAddr := fun h => hselfring (h ▸ hmem)
    obtain ⟨c0, hc0⟩ := mem_keys_lookupA _ _ (hr2k _ hmem)
    have hc0addr : c0.addr = consGet p.ringNodes key := by
      obtain ⟨e, he, hek, hea⟩ := lookupA_mem _ _ _ hc0
      rw [← hea, hcaddr e he, hek]
    refine ⟨c0, ?_, hc0, hc0addr, haddrne, hselfaddr⟩
    unfold pickPeer
    rw [if_pos haddrne, hc0]
    simp [hselfaddr]

theorem serverStampCtx_fromPeer (ctx : Ctx) : (serverStampCtx ctx).fromPeer = true := by
  unfold serverStampCtx
  by_cases h : ctx.fromPeer
  · rw [if_pos h]
    exact h
  · rw [if_neg h]

theorem groupSet_fromPeer_noSync (g : GroupM) (ctx : Ctx) (key value : String) (now : Nat)
    (h : ctx.fromPeer = true) :
    (groupSet g ctx key value now).2.2.1 = false ∧
    (groupSet g ctx key value now).2.2.2 = [] := by
  unfold groupSet
  by_cases hc : g.closed
  · rw [if_pos hc]
    exact ⟨rfl, rfl⟩
  · rw [if_neg hc]
    by_cases hk : key = "" ∨ value = ""
    · rw [if_pos hk]
      exact ⟨rfl, rfl⟩
    · rw [if_neg hk, if_neg (by simp [h])]
      exact ⟨rfl, rfl⟩

theorem groupDelete_fromPeer_noSync (g : GroupM) (ctx : Ctx) (key : String)
    (h : ctx.fromPeer = true) :
    (groupDelete g ctx key).2.2.1 = false ∧ (groupDelete g ctx key).2.2.2 = [] := by
  unfold groupDelete
  by_cases hc : g.closed
  · rw [if_pos hc]
    exact ⟨rfl, rfl⟩
  · rw [if_neg hc]
    by_cases hk : key = ""
    · rw [if_pos hk]
      exact ⟨rfl, rfl⟩
    · rw [if_neg hk, if_neg (by simp [h])]
      exact ⟨rfl, rfl⟩

theorem syncToPeers_spec (g : GroupM) (p : ClientPicker) (op key value : String)
    (hp : g.peers = some p) (hwf : wfPicker p) :
    (syncToPeers g op key value).length ≤ 1 ∧
    (∀ rc ∈ syncToPeers g op key value, rc.target = consGet p.ringNodes key) ∧
    (consGet p.ringNodes key = "" → syncToPeers g op key value = []) ∧
    ((pickPeer p key).2.2 = true → syncToPeers g op key value = []) ∧
    ((pickPeer p key).2.1 = false → syncToPeers g op key value = []) := by
  rcases pickPeer_cases p key hwf with ⟨hpk, _⟩ | ⟨c, hpk, _, hcaddr, hne, _⟩
  · have hs : syncToPeers g op key value = [] := by
      simp only [syncToPeers, hp, hpk]
    rw [hs]
    exact ⟨by simp, by simp, fun _ => rfl, fun _ => rfl, fun _ => rfl⟩
  · have hs : syncToPeers g op key value =
        (if op = "set" then [RemoteCall.setCall c.addr key value true]
         else if op = "delete" then [RemoteCall.delCall c.addr key] else []) := by
      simp only [syncToPeers, hp, hpk]
    refine ⟨?_, ?_, ?_, ?_, ?_⟩
    · rw [hs]
      by_cases h1 : op = "set"
      · rw [if_pos h1]
        simp
      · rw [if_neg h1]
        by_cases h2 : op = "delete"
        · rw [if_pos h2]
          simp
        · rw [if_neg h2]
          simp
    · intro rc hrc
      rw [hs] at hrc
      by_cases h1 : op = "set"
      · rw [if_pos h1] at hrc
        simp only [List.mem_singleton] at hrc
        rw [hrc]
        exact hcaddr
      · rw [if_neg h1] at hrc
        by_cases h2 : op = "delete"
        · rw [if_pos h2] at hrc
          simp only [List.mem_singleton] at hrc
          rw [hrc]
          exact hcaddr
        · rw [if_neg h2] at hrc
          simp at hrc
    · intro h
      exact absurd h hne
    · intro h
      rw [hpk] at h
      simp at h
    · intro h
      rw [hpk] at h
      simp at h

/-- C1: Server.Set stamps the inbound context with the from-peer marker
when it is absent (so the context it hands to Group.Set always carries
it); a Group.Set or Group.Delete whose context carries the marker never
launches syncToPeers and performs no remote call; a Set received through
the server therefore never re-broadcasts; and when a client-originated
write does sync, syncToPeers issues at most one remote call, addressed
to the ring owner of the key, and none when the pick fails or the owner
is self. -/
theorem claim1 :
    (∀ ctx : Ctx, (serverStampCtx ctx).fromPeer = true) ∧
    (∀ ctx : Ctx, ctx.fromPeer = true → serverStampCtx ctx = ctx) ∧
    (∀ (g : GroupM) (ctx : Ctx) (key value : String) (now : Nat), ctx.fromPeer = true →
      (groupSet g ctx key value now).2.2.1 = false ∧
      (groupSet g ctx key value now).2.2.2 = []) ∧
    (∀ (g : GroupM) (ctx : Ctx) (key : String), ctx.fromPeer = true →
      (groupDelete g ctx key).2.2.1 = false ∧
      (groupDelete g ctx key).2.2.2 = []) ∧
    (∀ (reg : List (String × GroupM)) (name : String) (ctx : Ctx) (key value : String)
        (now : Nat) (eff : GroupM × Bool × List RemoteCall),
      (serverSet reg name ctx key value now).2 = some eff →
      eff.2.1 = false ∧ eff.2.2 = []) ∧
    (∀ (g : GroupM) (p : ClientPicker) (op key value : String),
      g.peers = some p → wfPicker p →
      (syncToPeers g op key value).length ≤ 1 ∧
      (∀ rc ∈ syncToPeers g op key value, rc.target = consGet p.ringNodes key) ∧
      (consGet p.ringNodes key = "" → syncToPeers g op key value = []) ∧
      ((pickPeer p key).2.2 = true → syncToPeers g op key value = []) ∧
      ((pickPeer p key).2.1 = false → syncToPeers g op key value = [])) := by
  refine ⟨serverStampCtx_fromPeer, ?_, groupSet_fromPeer_noSync, groupDelete_fromPeer_noSync,
    ?_, syncToPeers_spec⟩
  · intro ctx h
    unfold serverStampCtx
    rw [if_pos h]
  · intro reg name ctx key value now eff h
    cases hG : getGroupR reg name with
    | none =>
      unfold serverSet at h
      rw [hG] at h
      exact absurd h (by simp)
    | some g =>
      have hss : serverSet reg name ctx key value now =
          ((groupSet g (serverStampCtx ctx) key value now).1,
            some (groupSet g (serverStampCtx ctx) key value now).2) := by
        unfold serverSet
        rw [hG]
      rw [hss] at h
      simp only [Option.some.injEq] at h
      have h3 := groupSet_fromPeer_noSync g (serverStampCtx ctx) key value now
        (serverStampCtx_fromPeer ctx)
      rw [← h]
      exact ⟨h3.1, h3.2⟩

/-- Concrete instance discharging the hypotheses inside claim1: a bare
context gets stamped, a marker-carrying Set performs no remote call, and
a client-originated sync on a two-node view issues at most one call. -/
theorem claim1_witness :
    (serverStampCtx ⟨false⟩).fromPeer = true ∧
    (groupSet ⟨"g", false, 0, ⟨[], false⟩, none, ⟨0, 0, 0, 0, 0, 0⟩⟩ ⟨true⟩ "k" "v" 0).2.2.2
      = [] ∧
    (syncToPeers ⟨"g", false, 0, ⟨[], false⟩, some ⟨"a", ["b"], [("b", ⟨"b"⟩)]⟩,
      ⟨0, 0, 0, 0, 0, 0⟩⟩ "set" "k" "v").length ≤ 1 := by
  obtain ⟨h1, h2, h3, h4, h5, h6⟩ := claim1
  exact ⟨h1 ⟨false⟩, (h3 _ ⟨true⟩ "k" "v" 0 rfl).2,
    (h6 _ ⟨"a", ["b"], [("b", ⟨"b"⟩)]⟩ "set" "k" "v" rfl (by decide)).1⟩

/-- C4 (amended): after Close, Get fails with "group is closed", Set and
Delete fail with "cache group is closed", Clear returns no error and is
a silent no-op, and a further Close returns nil and changes nothing. -/
theorem claim4 (g : GroupM) (hclosed : g.closed = true) :
    (∀ (getter : String → Except GoErr String)
        (peerFetch : Ctx → String → Outcome (Except GoErr String)) (ctx : Ctx)
        (key : String) (now : Nat),
      groupGet getter peerFetch g ctx key now =
        .ok (.error (.base "group is closed"), g, [])) ∧
    (∀ (ctx : Ctx) (key value : String) (now : Nat),
      groupSet g ctx key value now = (some (.base "cache group is closed"), g, false, [])) ∧
    (∀ (ctx : Ctx) (key : String),
      groupDelete g ctx key = (some (.base "cache group is closed"), g, false, [])) ∧
    groupClearR g = (none, g) ∧
    (∀ reg : List (String × GroupM), groupClose g reg = (none, g, reg)) := by
  refine ⟨?_, ?_, ?_, ?_, ?_⟩
  · intro getter peerFetch ctx key now
    unfold groupGet
    rw [if_pos hclosed]
  · intro ctx key value now
    unfold groupSet
    rw [if_pos hclosed]
  · intro ctx key
    unfold groupDelete
    rw [if_pos hclosed]
  · unfold groupClearR
    rw [if_pos hclosed]
  · intro reg
    unfold groupClose
    rw [if_pos hclosed]

/-- C4 counterexample to the claim as stated: Clear on a closed group
produces no error at all (the method has no error result and silently
returns), so not every public operation fails with a "closed" error. -/
theorem claim4_counterexample :
    (⟨"g", true, 0, ⟨[], false⟩, none, ⟨0, 0, 0, 0, 0, 0⟩⟩ : GroupM).closed = true ∧
    (groupClearR ⟨"g", true, 0, ⟨[], false⟩, none, ⟨0, 0, 0, 0, 0, 0⟩⟩).1 = none :=
  ⟨rfl, rfl⟩

/-- Concrete instance discharging the hypothesis of claim4. -/
theorem claim4_witness :
    groupSet ⟨"g", true, 0, ⟨[], false⟩, none, ⟨0, 0, 0, 0, 0, 0⟩⟩ ⟨false⟩ "k" "v" 0 =
      (some (.base "cache group is closed"),
        ⟨"g", true, 0, ⟨[], false⟩, none, ⟨0, 0, 0, 0, 0, 0⟩⟩, false, []) :=
  (claim4 _ rfl).2.1 ⟨false⟩ "k" "v" 0

/-- C6 (amended): when the loader errs for a key absent from the local
cache, Group.Get returns the loader error reformatted with the
non-wrapping verb — its message embeds the loader message verbatim, but
its Unwrap chain is a singleton that does not contain the loader error —
increments loaderErrors by one, invokes the loader exactly once, and
caches nothing (the group state differs only in the counters). -/
theorem claim6 (getter : String → Except GoErr String)
    (peerFetch : Ctx → String → Outcome (Except GoErr String))
    (g : GroupM) (ctx : Ctx) (key : String) (now : Nat) (e : GoErr)
    (hclosed : g.closed = false) (hkey : ¬key = "")
    (hmiss : cacheGet g.cache key now = none)
    (hroute : noRemoteRoute g key)
    (hget : getter key = .error e) :
    groupGet getter peerFetch g ctx key now =
      .ok (.error (errorfNoWrap "failed to get from getter: " e),
        bumpLoaderErrors (bumpLoads g), [.loaderCall key]) ∧
    (bumpLoaderErrors (bumpLoads g)).stats.loaderErrors = g.stats.loaderErrors + 1 ∧
    (bumpLoaderErrors (bumpLoads g)).cache = g.cache ∧
    (errorfNoWrap "failed to get from getter: " e).message =
      "failed to get from getter: " ++ e.message ∧
    errChain (errorfNoWrap "failed to get from getter: " e) =
      [errorfNoWrap "failed to get from getter: " e] ∧
    e ∉ errChain (errorfNoWrap "failed to get from getter: " e) := by
  have hload : loadData getter peerFetch g ctx key =
      .ok (loadFromGetter getter g key []) := by
    cases hpeers : g.peers with
    | none => simp only [loadData, hpeers]
    | some p =>
      rcases hpk : pickPeer p key with ⟨copt, ok, self⟩
      rcases hroute p hpeers with hok | hself
      · rw [hpk] at hok
        simp only at hok
        subst hok
        simp only [loadData, hpeers, hpk]
      · rw [hpk] at hself
        simp only at hself
        subst hself
        cases ok <;> simp only [loadData, hpeers, hpk]
  have hlfg : loadFromGetter getter g key [] =
      (.error (errorfNoWrap "failed to get from getter: " e), g, [.loaderCall key]) := by
    unfold loadFromGetter
    rw [hget]
    rfl
  have hmain : groupGet getter peerFetch g ctx key now =
      .ok (.error (errorfNoWrap "failed to get from getter: " e),
        bumpLoaderErrors (bumpLoads g), [.loaderCall key]) := by
    unfold groupGet groupLoad
    rw [if_neg (by simp [hclosed]), if_neg hkey, hmiss, hload, hlfg]
  refine ⟨hmain, rfl, rfl, rfl, rfl, ?_⟩
  intro hmem
  unfold errorfNoWrap errChain at hmem
  simp only [List.mem_singleton] at hmem
  cases e with
  | base m =>
    have hmsg : m = "failed to get from getter: " ++ m := by
      have hinj := GoErr.base.inj hmem
      simpa [GoErr.message] using hinj
    have hlen := congrArg String.length hmsg
    rw [String.length_append] at hlen
    have hpre : ("failed to get from getter: ").length = 27 := rfl
    omega
  | wrap m c => exact GoErr.noConfusion hmem

/-- C6 counterexample to the claim as stated: the timeout scenario of
the spec.  The loader fails with a deadline-exceeded error; the error
Group.Get returns embeds that text, but its Unwrap chain does not
contain the loader error (fmt.Errorf is called with the non-wrapping
verb), so the error is not surfaced verbatim in the chain sense. -/
theorem claim6_counterexample :
    groupGet (fun _ => .error (.base "context deadline exceeded")) clientGetFromPeer
      ⟨"slow-group", false, 0, ⟨[], false⟩, none, ⟨0, 0, 0, 0, 0, 0⟩⟩ ⟨false⟩ "slow-key" 0 =
      .ok (.error (.base "failed to get from getter: context deadline exceeded"),
        bumpLoaderErrors (bumpLoads
          ⟨"slow-group", false, 0, ⟨[], false⟩, none, ⟨0, 0, 0, 0, 0, 0⟩⟩),
        [.loaderCall "slow-key"]) ∧
    GoErr.base "context deadline exceeded" ∉
      errChain (.base "failed to get from getter: context deadline exceeded") :=
  ⟨rfl, by decide⟩

/-- Concrete instance discharging the hypotheses of claim6. -/
theorem claim6_witness :
    groupGet (fun _ => .error (.base "context deadline exceeded")) clientGetFromPeer
      ⟨"users", false, 0, ⟨[], false⟩, none, ⟨0, 0, 0, 0, 0, 0⟩⟩ ⟨false⟩ "u1" 3 =
      .ok (.error (errorfNoWrap "failed to get from getter: "
          (.base "context deadline exceeded")),
        bumpLoaderErrors (bumpLoads
          ⟨"users", false, 0, ⟨[], false⟩, none, ⟨0, 0, 0, 0, 0, 0⟩⟩),
        [.loaderCall "u1"]) :=
  (claim6 (fun _ => .error (.base "context deadline exceeded")) clientGetFromPeer
    ⟨"users", false, 0, ⟨[], false⟩, none, ⟨0, 0, 0, 0, 0, 0⟩⟩ ⟨false⟩ "u1" 3
    (.base "context deadline exceeded")
    rfl (by decide) rfl (fun p hp => absurd hp (by simp)) rfl).1

/-- C9: Client.GetFromPeer panics unconditionally, so a Group.Get that
misses locally and whose consistent-hash owner is a remote peer reaches
that panic in Group.loadData instead of receiving bytes or an error. -/
theorem claim9 (getter : String → Except GoErr String) (g : GroupM) (p : ClientPicker)
    (ctx : Ctx) (key : String) (now : Nat) (c : Client)
    (hclosed : g.closed = false) (hkey : ¬key = "")
    (hmiss : cacheGet g.cache key now = none)
    (hpeers : g.peers = some p)
    (hpick : pickPeer p key = (some c, true, false)) :
    (∀ (ctx2 : Ctx) (key2 : String),
      clientGetFromPeer ctx2 key2 = .panicked "unimplemented") ∧
    groupGet getter clientGetFromPeer g ctx key now = .panicked "unimplemented" := by
  refine ⟨fun _ _ => rfl, ?_⟩
  unfold groupGet groupLoad
  rw [if_neg (by simp [hclosed]), if_neg hkey, hmiss]
  simp only [loadData, hpeers, hpick, clientGetFromPeer]

/-- Concrete instance discharging the hypotheses of claim9: two-node
view, key owned by remote peer b, empty local cache. -/
theorem claim9_witness :
    groupGet (fun _ => .ok "data") clientGetFromPeer
      ⟨"g", false, 0, ⟨[], false⟩, some ⟨"a", ["b"], [("b", ⟨"b"⟩)]⟩, ⟨0, 0, 0, 0, 0, 0⟩⟩
      ⟨false⟩ "k" 0 = .panicked "unimplemented" :=
  (claim9 (fun _ => .ok "data")
    ⟨"g", false, 0, ⟨[], false⟩, some ⟨"a", ["b"], [("b", ⟨"b"⟩)]⟩, ⟨0, 0, 0, 0, 0, 0⟩⟩
    ⟨"a", ["b"], [("b", ⟨"b"⟩)]⟩ ⟨false⟩ "k" 0 ⟨"b"⟩ rfl (by decide) rfl rfl
    (by decide)).2

/-- C10: Group.Close deletes its own name from the process-wide map
unconditionally, so after NewGroup has registered a replacement group
under the same name, closing the old group removes the replacement
registration and GetGroup returns nil, though the replacement itself was
never closed. -/
theorem claim10 (reg : List (String × GroupM)) (g1 g2 : GroupM)
    (hnd : (keysA reg).Nodup) (hclosed : g1.closed = false) :
    getGroupR (registerGroup reg g1.name g2) g1.name = some g2 ∧
    (groupClose g1 (registerGroup reg g1.name g2)).1 = none ∧
    getGroupR (groupClose g1 (registerGroup reg g1.name g2)).2.2 g1.name = none := by
  refine ⟨?_, ?_, ?_⟩
  · unfold getGroupR registerGroup
    exact lookupA_setA_self reg g1.name g2
  · unfold groupClose
    rw [if_neg (by simp [hclosed])]
  · unfold groupClose
    rw [if_neg (by simp [hclosed])]
    unfold getGroupR registerGroup
    exact lookupA_eraseA_self _ _ (nodup_keysA_setA reg g1.name g2 hnd)

/-- Concrete instance discharging the hypotheses of claim10: the old
group "dup" is closed after a replacement was registered; the name then
resolves to nothing although the replacement was never closed. -/
theorem claim10_witness :
    getGroupR (groupClose ⟨"dup", false, 0, ⟨[], false⟩, none, ⟨0, 0, 0, 0, 0, 0⟩⟩
      (registerGroup [] "dup" ⟨"dup", false, 5, ⟨[], false⟩, none, ⟨0, 0, 0, 0, 0, 0⟩⟩)).2.2
      "dup" = none := by
  have h := claim10 [] ⟨"dup", false, 0, ⟨[], false⟩, none, ⟨0, 0, 0, 0, 0, 0⟩⟩
    ⟨"dup", false, 5, ⟨[], false⟩, none, ⟨0, 0, 0, 0, 0, 0⟩⟩ (by decide) rfl
  exact h.2.2

theorem listGet_lt {α : Type} : ∀ (l : List α) (i : Nat) (a : α),
    l[i]? = some a → i < l.length := by
  intro l
  induction l with
  | nil => intro i a h; simp at h
  | cons x t ih =>
    intro i a h
    cases i with
    | zero => simp
    | succ m =>
      simp only [List.getElem?_cons_succ] at h
      have := ih m a h
      simpa using Nat.succ_lt_succ this

theorem listGetSet_eq {α : Type} : ∀ (l : List α) (i : Nat) (a : α), i < l.length →
    (l.set i a)[i]? = some a := by
  intro l
  induction l with
  | nil => intro i a h; simp at h
  | cons x t ih =>
    intro i a h
    cases i with
    | zero => simp
    | succ m =>
      have hm : m < t.length := by simpa using h
      simpa using ih m a hm

theorem listGetSet_ne {α : Type} : ∀ (l : List α) (i j : Nat) (a : α), i ≠ j →
    (l.set i a)[j]? = l[j]? := by
  intro l
  induction l with
  | nil => intro i j a _; rfl
  | cons x t ih =>
    intro i j a h
    cases i with
    | zero =>
      cases j with
      | zero => exact absurd rfl h
      | succ mj => simp
    | succ mi =>
      cases j with
      | zero => simp
      | succ mj =>
        have h2 : mi ≠ mj := fun hc => h (by rw [hc])
        simpa using ih mi mj a h2

theorem listGetReplicate {α : Type} : ∀ (n i : Nat) (a b : α),
    (List.replicate n a)[i]? = some b → b = a := by
  intro n
  induction n with
  | zero => intro i a b h; simp at h
  | succ m ih =>
    intro i a b h
    cases i with
    | zero =>
      simp only [List.replicate, List.getElem?_cons_zero] at h
      exact (Option.some.inj h).symm
    | succ k =>
      simp only [List.replicate, List.getElem?_cons_succ] at h
      exact ih k a b h

theorem getD_append_none : ∀ (rs : List (Option Nat)) (rid : Nat),
    (rs ++ [none]).getD rid none = rs.getD rid none := by
  intro rs
  induction rs with
  | nil =>
    intro rid
    cases rid with
    | zero => rfl
    | succ m => cases m <;> rfl
  | cons a t ih =>
    intro rid
    cases rid with
    | zero => rfl
    | succ m =>
      rw [List.cons_append, List.getD_cons_succ, List.getD_cons_succ]
      exact ih m

theorem getD_set_self : ∀ (rs : List (Option Nat)) (rid : Nat) (r : Option Nat),
    rid < rs.length → (rs.set rid r).getD rid none = r := by
  intro rs
  induction rs with
  | nil => intro rid r h; simp at h
  | cons a t ih =>
    intro rid r h
    cases rid with
    | zero => rfl
    | succ m =>
      have hm : m < t.length := by simpa using h
      rw [List.set_cons_succ, List.getD_cons_succ]
      exact ih m r hm

theorem getD_set_ne : ∀ (rs : List (Option Nat)) (rid j : Nat) (r : Option Nat),
    rid ≠ j → (rs.set rid r).getD j none = rs.getD j none := by
  intro rs
  induction rs with
  | nil => intro rid j r _; rfl
  | cons a t ih =>
    intro rid j r h
    cases rid with
    | zero =>
      cases j with
      | zero => exact absurd rfl h
      | succ mj => rfl
    | succ mi =>
      cases j with
      | zero => rfl
      | succ mj =>
        have h2 : mi ≠ mj := fun hc => h (by rw [hc])
        rw [List.set_cons_succ, List.getD_cons_succ, List.getD_cons_succ]
        exact ih mi mj r h2

theorem getD_none_of_ge : ∀ (rs : List (Option Nat)) (rid : Nat),
    rs.length ≤ rid → rs.getD rid none = none := by
  intro rs
  induction rs with
  | nil => intro rid _; cases rid <;> rfl
  | cons a t ih =>
    intro rid h
    cases rid with
    | zero => simp at h
    | succ m =>
      rw [List.getD_cons_succ]
      exact ih m (by simpa using h)

theorem countSome_append_none (rs : List (Option Nat)) :
    countSome (rs ++ [none]) = countSome rs := by
  induction rs with
  | nil => rfl
  | cons a t ih =>
    cases a with
    | none =>
      show countSome (t ++ [none]) = countSome t
      exact ih
    | some v =>
      show countSome (t ++ [none]) + 1 = countSome t + 1
      rw [ih]

theorem countSome_set_some : ∀ (rs : List (Option Nat)) (rid r : Nat),
    rid < rs.length → rs.getD rid none = none →
    countSome (rs.set rid (some r)) = countSome rs + 1 := by
  intro rs
  induction rs with
  | nil => intro rid r h _; simp at h
  | cons a t ih =>
    intro rid r h hn
    cases rid with
    | zero =>
      have ha : a = none := hn
      subst ha
      rfl
    | succ m =>
      have hm : m < t.length := by simpa using h
      have hn2 : t.getD m none = none := hn
      rw [List.set_cons_succ]
      cases a with
      | none =>
        simp only [countSome]
        exact ih m r hm hn2
      | some v =>
        simp only [countSome]
        rw [ih m r hm hn2]

theorem countSome_le (rs : List (Option Nat)) : countSome rs ≤ rs.length := by
  induction rs with
  | nil => exact Nat.le_refl 0
  | cons a t ih =>
    cases a with
    | none =>
      simp only [countSome, List.length_cons]
      omega
    | some v =>
      simp only [countSome, List.length_cons]
      omega

theorem getSet_cases {α : Type} (l : List α) (t t' : Nat) (a b : α)
    (hlt : t < l.length) (hget : (l.set t a)[t']? = some b) :
    (t' = t ∧ b = a) ∨ (t' ≠ t ∧ l[t']? = some b) := by
  by_cases ht : t' = t
  · subst ht
    rw [listGetSet_eq l t' a hlt] at hget
    exact Or.inl ⟨rfl, (Option.some.inj hget).symm⟩
  · rw [listGetSet_ne l t t' a (fun hc => ht hc.symm)] at hget
    exact Or.inr ⟨ht, hget⟩

theorem sfStep_inv (fnRes : Nat → Nat) (c : SfConfig) (t : Nat) (h : SfInv c) :
    SfInv (sfStep fnRes c t) := by
  unfold sfStep
  cases hpc : c.threads[t]? with
  | none => exact h
  | some pc =>
    have htlt : t < c.threads.length := listGet_lt _ _ _ hpc
    cases pc with
    | start =>
      show SfInv (sfStepStart c t)
      unfold sfStepStart
      cases hslot : c.slot with
      | some rid =>
        have hrid : rid < c.results.length := h.slotBound rid hslot
        refine ⟨?_, ?_, ?_, ?_, h.countEq, ?_⟩
        · intro t' pc' rid' hget hprid
          rcases getSet_cases c.threads t t' _ pc' htlt hget with ⟨_, hb⟩ | ⟨_, hb⟩
          · subst hb
            simp only [pcRid] at hprid
            rw [← Option.some.inj hprid]
            exact hrid
          · exact h.ridBound t' pc' rid' hb hprid
        · intro t' rid' hget
          rcases getSet_cases c.threads t t' _ _ htlt hget with ⟨_, hb⟩ | ⟨_, hb⟩
          · exact SfPc.noConfusion hb
          · exact h.runningFresh t' rid' hb
        · intro t1 t2 rid1 rid2 hne h1 h2
          rcases getSet_cases c.threads t t1 _ _ htlt h1 with ⟨_, hb1⟩ | ⟨_, hb1⟩
          · exact SfPc.noConfusion hb1
          · rcases getSet_cases c.threads t t2 _ _ htlt h2 with ⟨_, hb2⟩ | ⟨_, hb2⟩
            · exact SfPc.noConfusion hb2
            · exact h.runningDistinct t1 t2 rid1 rid2 hne hb1 hb2
        · intro t' rid' r' hor
          rcases hor with hget | hget | hget <;>
            rcases getSet_cases c.threads t t' _ _ htlt hget with ⟨_, hb⟩ | ⟨_, hb⟩
          · exact SfPc.noConfusion hb
          · exact h.stored t' rid' r' (Or.inl hb)
          · exact SfPc.noConfusion hb
          · exact h.stored t' rid' r' (Or.inr (Or.inl hb))
          · exact SfPc.noConfusion hb
          · exact h.stored t' rid' r' (Or.inr (Or.inr hb))
        · intro rid' hs
          apply h.slotBound rid'
          rw [hslot]
          exact hs
      | none =>
        refine ⟨?_, ?_, ?_, ?_, ?_, ?_⟩
        · intro t' pc' rid' hget hprid
          have hgoal : (c.results ++ [none]).length = c.results.length + 1 := by
            simp
          rw [hgoal]
          rcases getSet_cases c.threads t t' _ pc' htlt hget with ⟨_, hb⟩ | ⟨_, hb⟩
          · subst hb
            simp only [pcRid] at hprid
            have he : rid' = c.results.length := (Option.some.inj hprid).symm
            omega
          · have := h.ridBound t' pc' rid' hb hprid
            omega
        · intro t' rid' hget
          rcases getSet_cases c.threads t t' _ _ htlt hget with ⟨_, hb⟩ | ⟨_, hb⟩
          · have he : rid' = c.results.length := by
              injection hb
            show (c.results ++ [none]).getD rid' none = none
            rw [getD_append_none, he]
            exact getD_none_of_ge _ _ (Nat.le_refl _)
          · have hold := h.runningFresh t' rid' hb
            show (c.results ++ [none]).getD rid' none = none
            rw [getD_append_none]
            exact hold
        · intro t1 t2 rid1 rid2 hne h1 h2
          rcases getSet_cases c.threads t t1 _ _ htlt h1 with ⟨ht1, hb1⟩ | ⟨ht1, hb1⟩
          · rcases getSet_cases c.threads t t2 _ _ htlt h2 with ⟨ht2, hb2⟩ | ⟨ht2, hb2⟩
            · exact absurd (ht1.trans ht2.symm) hne
            · have e1 : rid1 = c.results.length := by
                injection hb1
              have hlt2 := h.ridBound t2 _ rid2 hb2 rfl
              omega
          · rcases getSet_cases c.threads t t2 _ _ htlt h2 with ⟨ht2, hb2⟩ | ⟨ht2, hb2⟩
            · have e2 : rid2 = c.results.length := by
                injection hb2
              have hlt1 := h.ridBound t1 _ rid1 hb1 rfl
              omega
            · exact h.runningDistinct t1 t2 rid1 rid2 hne hb1 hb2
        · intro t' rid' r' hor
          rcases hor with hget | hget | hget <;>
            rcases getSet_cases c.threads t t' _ _ htlt hget with ⟨_, hb⟩ | ⟨_, hb⟩
          · exact SfPc.noConfusion hb
          · have hold := h.stored t' rid' r' (Or.inl hb)
            show (c.results ++ [none]).getD rid' none = some r'
            rw [getD_append_none]
            exact hold
          · exact SfPc.noConfusion hb
          · have hold := h.stored t' rid' r' (Or.inr (Or.inl hb))
            show (c.results ++ [none]).getD rid' none = some r'
            rw [getD_append_none]
            exact hold
          · exact SfPc.noConfusion hb
          · have hold := h.stored t' rid' r' (Or.inr (Or.inr hb))
            show (c.results ++ [none]).getD rid' none = some r'
            rw [getD_append_none]
            exact hold
        · show c.fnCount = countSome (c.results ++ [none])
          rw [countSome_append_none]
          exact h.countEq
        · intro rid' hs
          have he : rid' = c.results.length := (Option.some.inj hs).symm
          have hgoal : (c.results ++ [none]).length = c.results.length + 1 := by
            simp
          rw [hgoal]
          omega
    | running rid =>
      have hridlt : rid < c.results.length := h.ridBound t _ rid hpc rfl
      have hfresh : resAt c rid = none := h.runningFresh t rid hpc
      refine ⟨?_, ?_, ?_, ?_, ?_, ?_⟩
      · intro t' pc' rid' hget hprid
        have hgoal : (c.results.set rid (some (fnRes c.fnCount))).length =
            c.results.length := by
          simp
        rw [hgoal]
        rcases getSet_cases c.threads t t' _ pc' htlt hget with ⟨_, hb⟩ | ⟨_, hb⟩
        · subst hb
          simp only [pcRid] at hprid
          rw [← Option.some.inj hprid]
          exact hridlt
        · exact h.ridBound t' pc' rid' hb hprid
      · intro t' rid' hget
        rcases getSet_cases c.threads t t' _ _ htlt hget with ⟨_, hb⟩ | ⟨ht', hb⟩
        · exact SfPc.noConfusion hb
        · have hold := h.runningFresh t' rid' hb
          have hne : rid ≠ rid' := h.runningDistinct t t' rid rid'
            (fun hc => ht' hc.symm) hpc hb
          show (c.results.set rid (some (fnRes c.fnCount))).getD rid' none = none
          rw [getD_set_ne _ _ _ _ hne]
          exact hold
      · intro t1 t2 rid1 rid2 hne h1 h2
        rcases getSet_cases c.threads t t1 _ _ htlt h1 with ⟨_, hb1⟩ | ⟨_, hb1⟩
        · exact SfPc.noConfusion hb1
        · rcases getSet_cases c.threads t t2 _ _ htlt h2 with ⟨_, hb2⟩ | ⟨_, hb2⟩
          · exact SfPc.noConfusion hb2
          · exact h.runningDistinct t1 t2 rid1 rid2 hne hb1 hb2
      · intro t' rid' r' hor
        rcases hor with hget | hget | hget <;>
          rcases getSet_cases c.threads t t' _ _ htlt hget with ⟨_, hb⟩ | ⟨_, hb⟩
        · have e1 : rid' = rid ∧ r' = fnRes c.fnCount := by
            injection hb with ha hbb
            exact ⟨ha, hbb⟩
          show (c.results.set rid (some (fnRes c.fnCount))).getD rid' none = some r'
          rw [e1.1, getD_set_self _ _ _ hridlt, e1.2]
        · have hold := h.stored t' rid' r' (Or.inl hb)
          have hne2 : rid ≠ rid' := by
            intro hc
            rw [← hc] at hold
            rw [hfresh] at hold
            exact Option.noConfusion hold
          show (c.results.set rid (some (fnRes c.fnCount))).getD rid' none = some r'
          rw [getD_set_ne _ _ _ _ hne2]
          exact hold
        · exact SfPc.noConfusion hb
        · have hold := h.stored t' rid' r' (Or.inr (Or.inl hb))
          have hne2 : rid ≠ rid' := by
            intro hc
            rw [← hc] at hold
            rw [hfresh] at hold
            exact Option.noConfusion hold
          show (c.results.set rid (some (fnRes c.fnCount))).getD rid' none = some r'
          rw [getD_set_ne _ _ _ _ hne2]
          exact hold
        · exact SfPc.noConfusion hb
        · have hold := h.stored t' rid' r' (Or.inr (Or.inr hb))
          have hne2 : rid ≠ rid' := by
            intro hc
            rw [← hc] at hold
            rw [hfresh] at hold
            exact Option.noConfusion hold
          show (c.results.set rid (some (fnRes c.fnCount))).getD rid' none = some r'
          rw [getD_set_ne _ _ _ _ hne2]
          exact hold
      · show c.fnCount + 1 = countSome (c.results.set rid (some (fnRes c.fnCount)))
        rw [countSome_set_some _ _ _ hridlt hfresh, h.countEq]
      · intro rid' hs
        have hgoal : (c.results.set rid (some (fnRes c.fnCount))).length =
            c.results.length := by
          simp
        rw [hgoal]
        exact h.slotBound rid' hs
    | deleting rid r =>
      have hstored := h.stored t rid r (Or.inl hpc)
      refine ⟨?_, ?_, ?_, ?_, h.countEq, ?_⟩
      · intro t' pc' rid' hget hprid
        rcases getSet_cases c.threads t t' _ pc' htlt hget with ⟨_, hb⟩ | ⟨_, hb⟩
        · subst hb
          simp only [pcRid] at hprid
          rw [← Option.some.inj hprid]
          exact h.ridBound t _ rid hpc rfl
        · exact h.ridBound t' pc' rid' hb hprid
      · intro t' rid' hget
        rcases getSet_cases c.threads t t' _ _ htlt hget with ⟨_, hb⟩ | ⟨_, hb⟩
        · exact SfPc.noConfusion hb
        · exact h.runningFresh t' rid' hb
      · intro t1 t2 rid1 rid2 hne h1 h2
        rcases getSet_cases c.threads t t1 _ _ htlt h1 with ⟨_, hb1⟩ | ⟨_, hb1⟩
        · exact SfPc.noConfusion hb1
        · rcases getSet_cases c.threads t t2 _ _ htlt h2 with ⟨_, hb2⟩ | ⟨_, hb2⟩
          · exact SfPc.noConfusion hb2
          · exact h.runningDistinct t1 t2 rid1 rid2 hne hb1 hb2
      · intro t' rid' r' hor
        rcases hor with hget | hget | hget <;>
          rcases getSet_cases c.threads t t' _ _ htlt hget with ⟨_, hb⟩ | ⟨_, hb⟩
        · exact SfPc.noConfusion hb
        · exact h.stored t' rid' r' (Or.inl hb)
        · have e1 : rid' = rid ∧ r' = r := by
            injection hb with ha hbb
            exact ⟨ha, hbb⟩
          rw [e1.1, e1.2]
          exact hstored
        · exact h.stored t' rid' r' (Or.inr (Or.inl hb))
        · exact SfPc.noConfusion hb
        · exact h.stored t' rid' r' (Or.inr (Or.inr hb))
      · intro rid' hs
        exact Option.noConfusion hs
    | waiting rid =>
      show SfInv (sfStepWaiting c t rid)
      unfold sfStepWaiting
      cases hres : c.results.getD rid none with
      | none => exact h
      | some r =>
        refine ⟨?_, ?_, ?_, ?_, h.countEq, h.slotBound⟩
        · intro t' pc' rid' hget hprid
          rcases getSet_cases c.threads t t' _ pc' htlt hget with ⟨_, hb⟩ | ⟨_, hb⟩
          · subst hb
            simp only [pcRid] at hprid
            rw [← Option.some.inj hprid]
            exact h.ridBound t _ rid hpc rfl
          · exact h.ridBound t' pc' rid' hb hprid
        · intro t' rid' hget
          rcases getSet_cases c.threads t t' _ _ htlt hget with ⟨_, hb⟩ | ⟨_, hb⟩
          · exact SfPc.noConfusion hb
          · exact h.runningFresh t' rid' hb
        · intro t1 t2 rid1 rid2 hne h1 h2
          rcases getSet_cases c.threads t t1 _ _ htlt h1 with ⟨_, hb1⟩ | ⟨_, hb1⟩
          · exact SfPc.noConfusion hb1
          · rcases getSet_cases c.threads t t2 _ _ htlt h2 with ⟨_, hb2⟩ | ⟨_, hb2⟩
            · exact SfPc.noConfusion hb2
            · exact h.runningDistinct t1 t2 rid1 rid2 hne hb1 hb2
        · intro t' rid' r' hor
          rcases hor with hget | hget | hget <;>
            rcases getSet_cases c.threads t t' _ _ htlt hget with ⟨_, hb⟩ | ⟨_, hb⟩
          · exact SfPc.noConfusion hb
          · exact h.stored t' rid' r' (Or.inl hb)
          · have e1 : rid' = rid ∧ r' = r := by
              injection hb with ha hbb
              exact ⟨ha, hbb⟩
            rw [e1.1, e1.2]
            exact hres
          · exact h.stored t' rid' r' (Or.inr (Or.inl hb))
          · exact SfPc.noConfusion hb
          · exact h.stored t' rid' r' (Or.inr (Or.inr hb))
    | returning rid r =>
      have hstored := h.stored t rid r (Or.inr (Or.inl hpc))
      refine ⟨?_, ?_, ?_, ?_, h.countEq, h.slotBound⟩
      · intro t' pc' rid' hget hprid
        rcases getSet_cases c.threads t t' _ pc' htlt hget with ⟨_, hb⟩ | ⟨_, hb⟩
        · subst hb
          simp only [pcRid] at hprid
          rw [← Option.some.inj hprid]
          exact h.ridBound t _ rid hpc rfl
        · exact h.ridBound t' pc' rid' hb hprid
      · intro t' rid' hget
        rcases getSet_cases c.threads t t' _ _ htlt hget with ⟨_, hb⟩ | ⟨_, hb⟩
        · exact SfPc.noConfusion hb
        · exact h.runningFresh t' rid' hb
      · intro t1 t2 rid1 rid2 hne h1 h2
        rcases getSet_cases c.threads t t1 _ _ htlt h1 with ⟨_, hb1⟩ | ⟨_, hb1⟩
        · exact SfPc.noConfusion hb1
        · rcases getSet_cases c.threads t t2 _ _ htlt h2 with ⟨_, hb2⟩ | ⟨_, hb2⟩
          · exact SfPc.noConfusion hb2
          · exact h.runningDistinct t1 t2 rid1 rid2 hne hb1 hb2
      · intro t' rid' r' hor
        rcases hor with hget | hget | hget <;>
          rcases getSet_cases c.threads t t' _ _ htlt hget with ⟨_, hb⟩ | ⟨_, hb⟩
        · exact SfPc.noConfusion hb
        · exact h.stored t' rid' r' (Or.inl hb)
        · exact SfPc.noConfusion hb
        · exact h.stored t' rid' r' (Or.inr (Or.inl hb))
        · have e1 : rid' = rid ∧ r' = r := by
            injection hb with ha hbb
            exact ⟨ha, hbb⟩
          rw [e1.1, e1.2]
          exact hstored
        · exact h.stored t' rid' r' (Or.inr (Or.inr hb))
    | finished rid r => exact h

theorem sfInit_inv (n : Nat) : SfInv (sfInit n) := by
  refine ⟨?_, ?_, ?_, ?_, rfl, ?_⟩
  · intro t pc rid hget hprid
    have hs := listGetReplicate n t SfPc.start pc hget
    subst hs
    simp [pcRid] at hprid
  · intro t rid hget
    exact SfPc.noConfusion (listGetReplicate n t SfPc.start _ hget)
  · intro t1 t2 rid1 rid2 hne h1 h2
    exact SfPc.noConfusion (listGetReplicate n t1 SfPc.start _ h1)
  · intro t rid r hor
    rcases hor with hget | hget | hget <;>
      exact SfPc.noConfusion (listGetReplicate n t SfPc.start _ hget)
  · intro rid hs
    exact Option.noConfusion hs

theorem sfRun_inv (fnRes : Nat → Nat) (n : Nat) (sched : List Nat) :
    SfInv (sfRun fnRes n sched) := by
  have hgen : ∀ (l : List Nat) (c : SfConfig), SfInv c →
      SfInv (l.foldl (sfStep fnRes) c) := by
    intro l
    induction l with
    | nil => intro c hc; exact hc
    | cons x xs ih =>
      intro c hc
      exact ih _ (sfStep_inv fnRes c x hc)
  exact hgen sched (sfInit n) (sfInit_inv n)

/-- C2 counterexample to the contract as the spec states it: two Do
callers whose executions overlap in time (the second takes its first
step before the first returns) can still invoke fn twice and observe
different results, because the first caller deletes the call record
before the second checks the map. -/
theorem claim2_counterexample : ¬sfOriginalContract := by
  intro h
  have h2 := h (fun i => i) 2 [0, 0, 0, 1, 0, 1, 1, 1] 0 1 (by decide) (by decide)
  exact absurd h2.1 (by decide)

/-- C2 (amended): fn invocations are tied one-to-one to call records —
fn runs exactly once per filled record and at most once per record ever
installed — and all callers that complete through the same call record
(the leader and every waiter that joined it) return the same result. -/
theorem claim2 (fnRes : Nat → Nat) (n : Nat) (sched : List Nat) :
    (∀ (t1 t2 rid r1 r2 : Nat),
      (sfRun fnRes n sched).threads[t1]? = some (.finished rid r1) →
      (sfRun fnRes n sched).threads[t2]? = some (.finished rid r2) →
      r1 = r2) ∧
    (sfRun fnRes n sched).fnCount = countSome (sfRun fnRes n sched).results ∧
    (sfRun fnRes n sched).fnCount ≤ (sfRun fnRes n sched).results.length := by
  have hinv := sfRun_inv fnRes n sched
  refine ⟨?_, hinv.countEq, ?_⟩
  · intro t1 t2 rid r1 r2 h1 h2
    have e1 := hinv.stored t1 rid r1 (Or.inr (Or.inr h1))
    have e2 := hinv.stored t2 rid r2 (Or.inr (Or.inr h2))
    rw [e1] at e2
    exact Option.some.inj e2
  · rw [hinv.countEq]
    exact countSome_le _

/-- Concrete instance discharging the hypotheses inside claim2: a leader
and a waiter complete through the same call record and return the same
result; fn ran within the record budget. -/
theorem claim2_witness :
    (sfRun (fun i => i) 2 [0, 1, 0, 0, 0, 1, 1]).threads[0]? =
      some (.finished 0 0) ∧
    (0 : Nat) = 0 ∧
    (sfRun (fun i => i) 2 [0, 1, 0, 0, 0, 1, 1]).fnCount ≤
      (sfRun (fun i => i) 2 [0, 1, 0, 0, 0, 1, 1]).results.length := by
  refine ⟨by decide, ?_, (claim2 (fun i => i) 2 [0, 1, 0, 0, 0, 1, 1]).2.2⟩
  exact (claim2 (fun i => i) 2 [0, 1, 0, 0, 0, 1, 1]).1 0 1 0 0 0 (by decide) (by decide)

/-! ### Reachability of the invariants
The wfLru and wfPicker hypotheses used above characterize the states the
source code can actually produce: they hold of the freshly constructed
store and picker and are preserved by every operation. -/

theorem wfLru_empty (mb : Int) : wfLru ⟨mb, 0, [], []⟩ := by
  refine ⟨rfl, ?_, ?_⟩ <;> simp [keysA]

theorem wfLru_setWithExpiration (c : LruCache) (k v : String) (duration : Int) (now : Nat)
    (h : wfLru c) : wfLru (setWithExpiration c k v duration now) :=
  removeOldest_wf _ (wfLru_upsertTouched c k v duration now h)

theorem wfLru_lruDelete (c : LruCache) (k : String) (h : wfLru c) :
    wfLru (lruDelete c k) := by
  obtain ⟨hsum, hnodupL, hnodupE⟩ := h
  unfold lruDelete
  cases hl : lookupA c.ll k with
  | none => exact ⟨hsum, hnodupL, hnodupE⟩
  | some v =>
    refine ⟨?_, nodup_keysA_eraseA _ _ hnodupL, nodup_keysA_eraseA _ _ hnodupE⟩
    simp only
    rw [sumSizes_eraseA c.ll k v hl]
    omega

theorem wfLru_lruGet (c : LruCache) (k : String) (now : Nat) (h : wfLru c) :
    wfLru (lruGet c k now).state := by
  obtain ⟨hsum, hnodupL, hnodupE⟩ := h
  have hself : wfLru c := ⟨hsum, hnodupL, hnodupE⟩
  cases hl : lookupA c.ll k with
  | none => simpa [lruGet, hl] using hself
  | some v =>
    have hhit : wfLru { c with ll := eraseA c.ll k ++ [(k, v)] } := by
      refine ⟨?_, ?_, hnodupE⟩
      · simp only
        rw [sumSizes_append, sumSizes_eraseA c.ll k v hl]
        simp only [sumSizes, entrySize]
        omega
      · simp only
        rw [keysA_append, List.nodup_append]
        refine ⟨nodup_keysA_eraseA _ _ hnodupL, by simp [keysA], ?_⟩
        intro a ha
        simp only [keysA, List.map_cons, List.map_nil, List.mem_singleton]
        intro hb
        rw [hb] at ha
        exact not_mem_keysA_eraseA _ _ hnodupL ha
    cases he : lookupA c.expiredTime k with
    | none => simpa [lruGet, hl, he] using hhit
    | some expTime =>
      by_cases ht : expTime < now
      · simpa [lruGet, hl, he, ht] using hself
      · simpa [lruGet, hl, he, ht] using hhit

theorem any_keysA_iff {α : Type} (l : List (String × α)) (k : String) :
    (l.any fun e => e.1 == k) = true ↔ k ∈ keysA l := by
  rw [List.any_eq_true]
  constructor
  · rintro ⟨e, he, hek⟩
    simp only [keysA, List.mem_map]
    exact ⟨e, he, eq_of_beq hek⟩
  · intro h
    simp only [keysA, List.mem_map] at h
    obtain ⟨e, he, hek⟩ := h
    exact ⟨e, he, by simp [hek]⟩

theorem mem_keysA_setA {α : Type} (l : List (String × α)) (k a : String) (x : α) :
    a ∈ keysA (setA l k x) ↔ (a ∈ keysA l ∨ a = k) := by
  by_cases hany : (l.any fun e => e.1 == k) = true
  · rw [keysA_setA_of_any l k x hany]
    constructor
    · exact Or.inl
    · rintro (h | h)
      · exact h
      · rw [h]
        exact (any_keysA_iff l k).mp hany
  · have hnone : lookupA l k = none := by
      apply lookupA_eq_none
      intro e he hek
      exact hany ((any_keysA_iff l k).mpr (by simp only [keysA, List.mem_map]; exact ⟨e, he, hek⟩))
    rw [setA_of_not_mem l k x hnone, keysA_append]
    simp [keysA]

theorem mem_setA_elems {α : Type} (l : List (String × α)) (k : String) (x : α) :
    ∀ e ∈ setA l k x, e ∈ l ∨ e = (k, x) := by
  intro e he
  unfold setA at he
  by_cases hany : (l.any fun e => e.1 == k) = true
  · rw [if_pos hany] at he
    rw [List.mem_map] at he
    obtain ⟨e0, he0, heq⟩ := he
    by_cases hek : e0.1 = k
    · right
      rw [← heq]
      simp [hek]
    · left
      rw [← heq]
      have hb : (e0.1 == k) = false := by simp [hek]
      rw [hb]
      simpa using he0
  · rw [if_neg hany] at he
    rcases List.mem_append.mp he with h | h
    · exact Or.inl h
    · right
      simpa using h

theorem mem_eraseA_elems {α : Type} (l : List (String × α)) (k : String) :
    ∀ e ∈ eraseA l k, e ∈ l := by
  intro e he
  exact (List.eraseP_sublist l).mem he

theorem mem_keysA_eraseA_of {α : Type} (l : List (String × α)) (k a : String)
    (ha : a ∈ keysA l) (hak : a ≠ k) : a ∈ keysA (eraseA l k) := by
  induction l with
  | nil => simp [keysA] at ha
  | cons e t ih =>
    by_cases hek : e.1 = k
    · have hb : (e.1 == k) = true := by simp [hek]
      simp only [eraseA, List.eraseP_cons, hb, cond_true]
      simp only [keysA, List.map_cons, List.mem_cons] at ha
      rcases ha with h | h
      · exact absurd (h.trans hek) hak
      · exact h
    · have hb : (e.1 == k) = false := by simp [hek]
      simp only [eraseA, List.eraseP_cons, hb, cond_false]
      simp only [keysA, List.map_cons, List.mem_cons] at ha ⊢
      rcases ha with h | h
      · exact Or.inl h
      · exact Or.inr (ih h)

theorem mem_keysA_eraseA_sub {α : Type} (l : List (String × α)) (k a : String)
    (ha : a ∈ keysA (eraseA l k)) : a ∈ keysA l :=
  ((keysA_eraseA_sublist l k).subset) ha

theorem wfPicker_init (self : String) (h : self ≠ "") : wfPicker ⟨self, [], []⟩ := by
  refine ⟨h, by simp, by simp, by simp [keysA], by simp, by simp [keysA], by simp⟩

theorem wfPicker_pickerSet (p : ClientPicker) (addr : String) (hwf : wfPicker p)
    (h1 : addr ≠ "") (h2 : addr ≠ p.selfAddr) : wfPicker (pickerSet p addr) := by
  obtain ⟨hselfne, hempring, hselfring, hnd, hr2k, hk2r, hcaddr⟩ := hwf
  refine ⟨hselfne, ?_, ?_, nodup_keysA_setA _ _ _ hnd, ?_, ?_, ?_⟩
  · intro hmem
    rcases List.mem_append.mp hmem with h | h
    · exact hempring h
    · simp only [List.mem_singleton] at h
      exact h1 h.symm
  · intro hmem
    rcases List.mem_append.mp hmem with h | h
    · exact hselfring h
    · simp only [List.mem_singleton] at h
      exact h2 h.symm
  · intro a ha
    have ha2 : a ∈ p.ringNodes ++ [addr] := ha
    show a ∈ keysA (setA p.clients addr ⟨addr⟩)
    rw [mem_keysA_setA]
    rcases List.mem_append.mp ha2 with h | h
    · exact Or.inl (hr2k a h)
    · simp only [List.mem_singleton] at h
      exact Or.inr h
  · intro a ha
    have ha2 : a ∈ keysA (setA p.clients addr ⟨addr⟩) := ha
    rw [mem_keysA_setA] at ha2
    show a ∈ p.ringNodes ++ [addr]
    rw [List.mem_append]
    rcases ha2 with h | h
    · exact Or.inl (hk2r a h)
    · right
      simp [h]
  · intro e he
    rcases mem_setA_elems _ _ _ e he with h | h
    · exact hcaddr e h
    · rw [h]

theorem wfPicker_pickerRemove (p : ClientPicker) (addr : String) (hwf : wfPicker p) :
    wfPicker (pickerRemove p addr) := by
  obtain ⟨hselfne, hempring, hselfring, hnd, hr2k, hk2r, hcaddr⟩ := hwf
  refine ⟨hselfne, ?_, ?_, nodup_keysA_eraseA _ _ hnd, ?_, ?_, ?_⟩
  · intro hmem
    exact hempring (List.mem_of_mem_filter hmem)
  · intro hmem
    exact hselfring (List.mem_of_mem_filter hmem)
  · intro a ha
    have ha2 : a ∈ p.ringNodes.filter (fun x => x ≠ addr) := ha
    rw [List.mem_filter] at ha2
    have hane : a ≠ addr := by
      have := ha2.2
      simpa using this
    show a ∈ keysA (eraseA p.clients addr)
    exact mem_keysA_eraseA_of _ _ _ (hr2k a ha2.1) hane
  · intro a ha
    have ha2 : a ∈ keysA (eraseA p.clients addr) := ha
    have hmem := hk2r a (mem_keysA_eraseA_sub _ _ _ ha2)
    have hane : a ≠ addr := by
      intro hc
      rw [hc] at ha2
      exact not_mem_keysA_eraseA _ _ hnd ha2
    show a ∈ p.ringNodes.filter (fun x => x ≠ addr)
    rw [List.mem_filter]
    refine ⟨hmem, by simpa using hane⟩
  · intro e he
    exact hcaddr e (mem_eraseA_elems _ _ e he)

theorem wfPicker_fetchAllServices (p : ClientPicker) (addrs : List String)
    (hwf : wfPicker p) : wfPicker (fetchAllServices p addrs) := by
  unfold fetchAllServices
  induction addrs generalizing p with
  | nil => exact hwf
  | cons a t ih =>
    simp only [List.foldl_cons]
    by_cases hc : a ≠ "" ∧ a ≠ p.selfAddr
    · rw [if_pos hc]
      exact ih (pickerSet p a) (wfPicker_pickerSet p a hwf hc.1 hc.2)
    · rw [if_neg hc]
      exact ih p hwf

theorem wfPicker_handleWatchEvents (p : ClientPicker) (events : List (Bool × String))
    (hwf : wfPicker p) (hne : ∀ ev ∈ events, ev.1 = true → ev.2 ≠ "") :
    wfPicker (handleWatchEvents p events) := by
  unfold handleWatchEvents
  induction events generalizing p with
  | nil => exact hwf
  | cons ev t ih =>
    simp only [List.foldl_cons]
    have hnet : ∀ ev2 ∈ t, ev2.1 = true → ev2.2 ≠ "" :=
      fun ev2 h2 => hne ev2 (List.mem_cons_of_mem ev h2)
    by_cases hself : ev.2 = p.selfAddr
    · rw [if_pos hself]
      exact ih p hwf hnet
    · rw [if_neg hself]
      by_cases hput : ev.1
      · rw [if_pos hput]
        by_cases hknown : (lookupA p.clients ev.2).isSome
        · rw [if_pos hknown]
          exact ih p hwf hnet
        · rw [if_neg hknown]
          exact ih _ (wfPicker_pickerSet p ev.2 hwf
            (hne ev (List.mem_cons_self ev t) hput) hself) hnet
      · rw [if_neg hput]
        by_cases hknown : (lookupA p.clients ev.2).isSome
        · rw [if_pos hknown]
          exact ih _ (wfPicker_pickerRemove p ev.2 hwf) hnet
        · rw [if_neg hknown]
          exact ih p hwf hnet

end BlockCache

